import Mathlib

set_option autoImplicit false

/-!
Shallow embedding of the nano-vectordb-cpp repository: the single-tenant
vector store (include/NanoVectorDB.hpp, include/helper.hpp) and the
multi-tenant cache manager (include/MultiTenantNanoVDB.hpp), together with
theorems settling the frozen claims about them.

Machine floats (`Eigen::VectorXf` entries) are modelled by a linearly
ordered commutative ring `K`; witnesses instantiate `K := Int`.  The two
operations whose numeric output is not expressible over such a ring —
division by the Euclidean norm inside `normalize` / `normalize_rows`
(helper.hpp lines 132-146 and 176-186) and `std::hash<float>` inside
`hash_vector` (helper.hpp line 159) — are taken as explicit function
parameters (`nf`, `hf`); the guard structure around them (empty-vector and
zero-norm checks, the hash-combine loop, hex formatting) is embedded from
the source.  C++ exceptions are modelled with `Except`; where the source
can throw after having mutated `this`, the error value carries the state
at throw time, so "fails without mutating state" is expressible.
-/

namespace nano_vectordb

/-- Model of `nlohmann::json` blobs to the extent the claims need them:
the null/non-null distinction (`additional_data_.is_null()` in
NanoVectorDB::save) and decidable equality of whole blobs. -/
inductive JsonV where
  | null : JsonV
  | obj : List (String × String) → JsonV
  | str : String → JsonV
deriving DecidableEq, Repr

instance : Inhabited JsonV := ⟨JsonV.obj []⟩

/-- Source struct `Data` (include/structs.hpp): one record, an id and a
vector. -/
structure Data (K : Type) where
  id : String
  vector : List K
deriving DecidableEq, Repr

instance {K : Type} : Inhabited (Data K) := ⟨⟨"", []⟩⟩

/-- Source struct `QueryResult` (include/structs.hpp). -/
structure QueryResult (K : Type) where
  data : Data K
  score : K
deriving DecidableEq, Repr

/-- Value state of class `NanoVectorDB` (include/NanoVectorDB.hpp lines
637-642): configured dimension, metric string, storage path, record list
`data_`, dense matrix `matrix_` (a list of rows), and the additional-data
blob. -/
structure NanoVectorDB (K : Type) where
  embedding_dim : Nat
  metric : String
  storage_file : String
  data : List (Data K)
  matrix : List (List K)
  additional_data : JsonV
deriving DecidableEq, Repr

/-- Association-list model of `std::unordered_map` lookup (`find`). -/
def lookupA {α : Type} : List (String × α) → String → Option α
  | [], _ => none
  | (k, v) :: rest, key => if k = key then some v else lookupA rest key

/-- Association-list model of `std::unordered_map` assignment
(`map[key] = v`): replace the value in place if the key is present,
otherwise append. -/
def insertA {α : Type} : List (String × α) → String → α → List (String × α)
  | [], key, v => [(key, v)]
  | (k, w) :: rest, key, v =>
    if k = key then (k, v) :: rest else (k, w) :: insertA rest key v

/-- Association-list model of `std::unordered_map::erase` by key. -/
def eraseA {α : Type} (m : List (String × α)) (key : String) : List (String × α) :=
  m.filter (fun p => decide (p.1 ≠ key))

section Store

variable {K : Type} [LinearOrderedCommRing K]

/-- Sum of squares of a vector.  Over the reals `‖v‖ = 0` iff this is `0`,
which is how the zero-norm guards of helper.hpp are expressed in the
model. -/
def normSq (v : List K) : K := (v.map (fun x => x * x)).sum

/-- helper.hpp `normalize` (lines 176-186): throws on an empty vector and
on a zero-norm vector, otherwise returns `v / v.norm()`, abstracted as
`nf v`. -/
def normalize (nf : List K → List K) (v : List K) : Except String (List K) :=
  if v.length = 0 then .error "Cannot normalize empty vector"
  else if normSq v = 0 then .error "Cannot normalize zero-norm vector"
  else .ok (nf v)

/-- One round of the hash-combine loop of helper.hpp `hash_vector`
(line 163): `hash ^= hasher(v[i]) + 0x9e3779b9 + (hash << 6) + (hash >> 2)`
over 64-bit `size_t` arithmetic. -/
def hashStep (h x : Nat) : Nat :=
  h ^^^ ((x % 2 ^ 64 + 0x9e3779b9 + h * 2 ^ 6 + h / 2 ^ 2) % 2 ^ 64)

/-- The hex digest computed by helper.hpp `hash_vector` (lines 159-167):
fold the combine loop over the components (hashed by `hf`, the model of
`std::hash<float>`) and format the result in lowercase hex, as
`oss << std::hex << hash` does. -/
def hashHex (hf : K → Nat) (v : List K) : String :=
  (Nat.toDigits 16 (v.foldl (fun h x => hashStep h (hf x)) 0)).asString

/-- helper.hpp `hash_vector` (lines 154-168): throws on an empty vector,
otherwise returns the hex digest of the combine loop. -/
def hash_vector (hf : K → Nat) (v : List K) : Except String String :=
  if v.length = 0 then .error "Cannot hash empty vector"
  else .ok (hashHex hf v)

/-- First phase of `NanoVectorDB::upsert` (lines 292-306): per input
record, reject a vector whose length differs from the configured
dimension, derive the id from the vector content when the given id is
empty, and build the deduplicated id-to-record map (later batch entries
override earlier ones). -/
def buildIndex (hf : K → Nat) (N : Nat) :
    List (String × Data K) → List (Data K) → Except String (List (String × Data K))
  | acc, [] => .ok acc
  | acc, d :: ds =>
    if d.vector.length ≠ N then
      .error ("Eigen::VectorXf dimension mismatch in upsert: expected " ++
        toString N ++ ", got " ++ toString d.vector.length)
    else
      match (if d.id = "" then hash_vector hf d.vector else .ok d.id) with
      | .error e => .error e
      | .ok id => buildIndex hf N (insertA acc id { d with id := id }) ds

/-- Second phase of `NanoVectorDB::upsert` (lines 307-313): under the
cosine metric, normalize every vector in the incoming map. -/
def normalizeValues (nf : List K → List K) :
    List (String × Data K) → Except String (List (String × Data K))
  | [] => .ok []
  | (id, d) :: rest =>
    match normalize nf d.vector with
    | .error e => .error e
    | .ok v =>
      match normalizeValues nf rest with
      | .error e => .error e
      | .ok rest2 => .ok ((id, { d with vector := v }) :: rest2)

/-- Body of the update loop of `NanoVectorDB::upsert` (lines 318-333) at
one store index `i`: if the stored id appears in the incoming map,
overwrite the record, then (after a size re-check that throws with the
record already overwritten but the matrix row not yet written) overwrite
matrix row `i` and mark the id updated. -/
def updStep (N : Nat) (m : List (String × Data K))
    (acc : NanoVectorDB K × List String) (i : Nat) :
    Except (String × NanoVectorDB K) (NanoVectorDB K × List String) :=
  let st := acc.1
  let upd := acc.2
  match lookupA m (st.data.getD i default).id with
  | none => .ok (st, upd)
  | some e =>
    let st1 := { st with data := st.data.set i e }
    if e.vector.length ≠ N then
      .error ("[upsert] Eigen::VectorXf size mismatch before assignment", st1)
    else
      .ok ({ st1 with matrix := st1.matrix.set i e.vector }, upd ++ [(st.data.getD i default).id])

/-- The update loop of `NanoVectorDB::upsert` (lines 318-333), iterating
`updStep` over store indices `i, i+1, …` with `fuel` iterations left. -/
def updFrom (N : Nat) (m : List (String × Data K)) :
    Nat → Nat → NanoVectorDB K × List String →
    Except (String × NanoVectorDB K) (NanoVectorDB K × List String)
  | _, 0, acc => .ok acc
  | i, fuel + 1, acc =>
    match updStep N m acc i with
    | .error e => .error e
    | .ok acc2 => updFrom N m (i + 1) fuel acc2

/-- The insert loop of `NanoVectorDB::upsert` (lines 334-348): for every
map entry whose id was not updated in place, re-check the vector size
(throwing with the state as mutated so far) and append the record and its
matrix row. -/
def insertNew (N : Nat) :
    List (String × Data K) → List String → NanoVectorDB K →
    Except (String × NanoVectorDB K) (NanoVectorDB K)
  | [], _, st => .ok st
  | (id, d) :: rest, upd, st =>
    if id ∈ upd then insertNew N rest upd st
    else if d.vector.length ≠ N then
      .error ("[upsert] Eigen::VectorXf size mismatch before assignment (new row)", st)
    else
      insertNew N rest upd
        { st with data := st.data ++ [d], matrix := st.matrix ++ [d.vector] }

/-- `NanoVectorDB::upsert` (include/NanoVectorDB.hpp lines 289-350).
Errors carry the state at throw time: the dimension check and the
normalization of the incoming map run before any mutation of the store,
so errors raised there carry the input state unchanged. -/
def NanoVectorDB.upsert (nf : List K → List K) (hf : K → Nat)
    (st : NanoVectorDB K) (datas : List (Data K)) :
    Except (String × NanoVectorDB K) (NanoVectorDB K) :=
  match buildIndex hf st.embedding_dim [] datas with
  | .error msg => .error (msg, st)
  | .ok m0 =>
    match (if st.metric = "cosine" then normalizeValues nf m0 else .ok m0) with
    | .error msg => .error (msg, st)
    | .ok m =>
      match updFrom st.embedding_dim m 0 st.data.length (st, []) with
      | .error e => .error e
      | .ok (st1, upd) => insertNew st.embedding_dim m upd st1

/-- The `keep_indices` list of `NanoVectorDB::remove` (lines 377-386):
the store indices whose record id is not in the removal request. -/
def keepIndices (st : NanoVectorDB K) (ids : List String) : List Nat :=
  (List.range st.data.length).filter
    (fun i => !(ids.contains (st.data.getD i default).id))

/-- `NanoVectorDB::remove` (lines 374-398): keep the records whose id is
not in the request, rebuilding the matrix over the surviving indices in
their original relative order.  The final row-count re-check of the
source never fires because both outputs are built over the same index
list. -/
def NanoVectorDB.remove (st : NanoVectorDB K) (ids : List String) : NanoVectorDB K :=
  { st with
    data := (keepIndices st ids).map (fun i => st.data.getD i default),
    matrix := (keepIndices st ids).map (fun i => st.matrix.getD i []) }

/-- `NanoVectorDB::size` (lines 467-470). -/
def NanoVectorDB.size (st : NanoVectorDB K) : Nat := st.data.length

/-- Modelled from the spec: `clear()` is listed in the repository API
docs (docs/NanoVectorDB.md, "clear(): Removes all records") and in the
spec ("drop all records and reset the matrix to zero rows (dimension
unchanged)"), but no implementation of it exists under src/. -/
def NanoVectorDB.clear (st : NanoVectorDB K) : NanoVectorDB K :=
  { st with data := [], matrix := [] }

/-- Model of a configured metric strategy (`std::shared_ptr<IMetric>`):
the distance function together with the result of the
`dynamic_pointer_cast<CosineMetric>` test the query path performs. -/
structure MetricStrategy (K : Type) where
  dist : List K → List K → K
  isCosine : Bool

/-- Descending insertion by score, modelling
`std::sort(scored.begin(), scored.end(), [](a, b) { a.second > b.second })`
(lines 444 and 626).  The source leaves tie order unspecified; this is one
deterministic refinement of it. -/
def insertByScore (p : Nat × K) : List (Nat × K) → List (Nat × K)
  | [] => [p]
  | q :: qs => if p.2 > q.2 then p :: q :: qs else q :: insertByScore p qs

/-- Sort candidate (index, score) pairs by descending score. -/
def sortByScoreDesc (l : List (Nat × K)) : List (Nat × K) :=
  l.foldr insertByScore []

/-- The result-emission loop shared by `query` (lines 446-452) and
`cosine_query` (lines 628-633): walk the sorted candidates, stop at
`top_k` results, and under a threshold break at the first score below
it; each emitted pair is turned into a `QueryResult` from the record at
its index. -/
def emitLoop (data : List (Data K)) (thr : Option K) :
    Nat → List (Nat × K) → List (QueryResult K)
  | 0, _ => []
  | _ + 1, [] => []
  | n + 1, p :: rest =>
    match thr with
    | some t =>
      if p.2 < t then []
      else ⟨data.getD p.1 default, p.2⟩ :: emitLoop data thr n rest
    | none => ⟨data.getD p.1 default, p.2⟩ :: emitLoop data thr n rest

/-- The candidate index set of a query (lines 421-434 and 606-619): the
indices passing the filter, or all indices when no filter is given. -/
def candidateIndices (data : List (Data K)) : Option (Data K → Bool) → List Nat
  | some f => (List.range data.length).filter (fun i => f (data.getD i default))
  | none => List.range data.length

/-- Dot product of two vectors (`matrix_.row(idx).dot(q)`, line 623). -/
def dotL (a b : List K) : K := ((a.zip b).map (fun p => p.1 * p.2)).sum

/-- `NanoVectorDB::cosine_query` (lines 601-635): normalize the query
vector (which throws on a zero-norm query), score every candidate by dot
product with its matrix row, sort descending and emit. -/
def NanoVectorDB.cosine_query (nf : List K → List K) (st : NanoVectorDB K)
    (q : List K) (top_k : Nat) (thr : Option K) (flt : Option (Data K → Bool)) :
    Except String (List (QueryResult K)) :=
  match normalize nf q with
  | .error e => .error e
  | .ok qn =>
    let scored := (candidateIndices st.data flt).map
      (fun i => (i, dotL (st.matrix.getD i []) qn))
    .ok (emitLoop st.data thr top_k (sortByScoreDesc scored))

/-- `NanoVectorDB::query` (lines 409-460): reject a query vector of the
wrong length; with a metric strategy, score candidates by sign-adjusted
distance over the record vectors (cosine: `1 - dist`, otherwise `-dist`),
sort descending and emit; without a strategy, fall through to
`cosine_query` under the cosine metric string and to an empty result
otherwise. -/
def NanoVectorDB.query (nf : List K → List K) (st : NanoVectorDB K)
    (strat : Option (MetricStrategy K)) (q : List K) (top_k : Nat)
    (thr : Option K) (flt : Option (Data K → Bool)) :
    Except String (List (QueryResult K)) :=
  if q.length ≠ st.embedding_dim then
    .error ("Query vector dimension mismatch: expected " ++
      toString st.embedding_dim ++ ", got " ++ toString q.length)
  else
    match strat with
    | some ms =>
      let scored := (candidateIndices st.data flt).map
        (fun i =>
          let dist := ms.dist q (st.data.getD i default).vector
          (i, if ms.isCosine then 1 - dist else -dist))
      .ok (emitLoop st.data thr top_k (sortByScoreDesc scored))
    | none =>
      if st.metric = "cosine" then st.cosine_query nf q top_k thr flt
      else .ok []

end Store

/-! ### Byte-oriented persistence loading (claim C6)

The default byte-oriented on-disk format is a JSON document with fields
`matrix` (base64 blob of the row-major raw 32-bit floats), `data` (a list
of objects with an `id` field), optional `embedding_dim`, and optional
`additional_data`.  This slice models the constructor's validation path
(include/NanoVectorDB.hpp lines 79-140, include/helper.hpp lines 65-94)
at byte level: the floats are kept as their 32-bit little-endian bit
patterns (`Nat` words), since only lengths and counts matter to the
validations; base64 decoding is an explicit `decode` parameter. -/

/-- The fields of the persisted document as the constructor reads them:
`none` models an absent field, and an entry of `none` in `dataIds` models
a data object without an `id` field. -/
structure StoredDoc where
  matrix : Option String
  dataIds : Option (List (Option String))
  embedding_dim : Option Int
  additional : Option JsonV
deriving DecidableEq, Repr

/-- Group a byte list into 32-bit little-endian words, modelling the
`memcpy` of the decoded buffer into the float matrix (helper.hpp line
92); a trailing group of fewer than 4 bytes is impossible on the accepted
lengths. -/
def bytesToWords : List Nat → List Nat
  | b0 :: b1 :: b2 :: b3 :: rest =>
    (b0 + 256 * b1 + 65536 * b2 + 16777216 * b3) :: bytesToWords rest
  | _ => []

/-- Chunk a word list into rows of `dim` words; `fuel` bounds the
recursion and is called with the list length. -/
def chunkRows (dim : Nat) : Nat → List Nat → List (List Nat)
  | 0, _ => []
  | _, [] => []
  | fuel + 1, ws => ws.take dim :: chunkRows dim fuel (ws.drop dim)

/-- helper.hpp `buffer_string_to_array` (lines 65-94): a non-positive
dimension is rejected; an empty base64 string or an empty decode result
yields a zero-row matrix; a decoded byte length that is not an exact
multiple of `dim * 4` throws; otherwise the bytes are reinterpreted as
`len / (dim * 4)` rows of 32-bit words. -/
def buffer_string_to_array (decode : String → List Nat) (b64 : String)
    (dim : Nat) : Except String (List (List Nat)) :=
  if dim = 0 then
    .error "Embedding dimension must be positive in buffer_string_to_array"
  else if b64 = "" then .ok []
  else
    let bytes := decode b64
    if bytes.length = 0 then .ok []
    else if bytes.length % (dim * 4) ≠ 0 then
      .error "Invalid decoded length for embedding_dim in buffer_string_to_array"
    else .ok (chunkRows dim bytes.length (bytesToWords bytes))

/-- The data-entry loop of the constructor (lines 109-120): each entry
must carry an `id`; its vector is row `data_.size()` of the decoded
matrix at the time it is appended. -/
def buildLoadEntries (matrix : List (List Nat)) :
    List (String × List Nat) → List (Option String) →
    Except String (List (String × List Nat))
  | acc, [] => .ok acc
  | acc, d :: ds =>
    match d with
    | none => .error "Data entry missing id field"
    | some id => buildLoadEntries matrix (acc ++ [(id, matrix.getD acc.length [])]) ds

/-- Final validations of the constructor (lines 126-139): the
`embedding_dim` field is compared against the configured dimension only
when it is present; then the row count must equal the record count; then
`pre_process` (abstracted as `pp`, the cosine row normalization) runs. -/
def constructFinish (pp : List (List Nat) → Except String (List (List Nat)))
    (entries : List (String × List Nat)) (matrix : List (List Nat)) :
    Except String (List (String × List Nat) × List (List Nat)) :=
  if matrix.length ≠ entries.length then
    .error "Eigen::MatrixXf row count does not match data size"
  else
    match pp matrix with
    | .error e => .error e
    | .ok m2 => .ok (entries, m2)

/-- The byte-oriented loading path of the `NanoVectorDB` constructor over
an existing, parsed document (include/NanoVectorDB.hpp lines 79-140):
require the `matrix` field, decode it, require the `data` field and an
`id` per entry, compare `embedding_dim` against the configured dimension
when the field is present, and require row count equal to record
count. -/
def constructLoadBytes (embedding_dim : Nat) (doc : StoredDoc)
    (decode : String → List Nat)
    (pp : List (List Nat) → Except String (List (List Nat))) :
    Except String (List (String × List Nat) × List (List Nat)) :=
  match doc.matrix with
  | none => .error "Storage file missing matrix field"
  | some b64 =>
    match buffer_string_to_array decode b64 embedding_dim with
    | .error e => .error e
    | .ok matrix =>
      match doc.dataIds with
      | none => .error "Storage file missing data field"
      | some ds =>
        match buildLoadEntries matrix [] ds with
        | .error e => .error e
        | .ok entries =>
          match doc.embedding_dim with
          | some ld =>
            if ld ≠ (embedding_dim : Int) then .error "Embedding dim mismatch"
            else constructFinish pp entries matrix
          | none => constructFinish pp entries matrix

section MultiTenant

variable {K : Type} [LinearOrderedCommRing K]

/-- helper.hpp `normalize_rows` (lines 132-146): normalize every row,
throwing on a zero-norm row; the division by the row norm is abstracted
as `nf`. -/
def normalize_rows (nf : List K → List K) :
    List (List K) → Except String (List (List K))
  | [] => .ok []
  | row :: rest =>
    if normSq row = 0 then
      .error "Cannot normalize zero-norm row in matrix"
    else
      match normalize_rows nf rest with
      | .error e => .error e
      | .ok rest2 => .ok (nf row :: rest2)

/-- `NanoVectorDB::pre_process` (lines 273-282): under the cosine metric
and a non-empty matrix, normalize all rows. -/
def pre_process (nf : List K → List K) (metric : String)
    (matrix : List (List K)) : Except String (List (List K)) :=
  if metric = "cosine" ∧ matrix ≠ [] then normalize_rows nf matrix
  else .ok matrix

/-- The JSON document written by `NanoVectorDB::save` (lines 485-501),
kept at row level: `embedding_dim`, the record ids in order, the matrix
rows (the base64 byte encoding of the row-major floats is modelled at
byte level separately, in `constructLoadBytes`), and the additional-data
blob — the source omits the field when the blob is null, which is
modelled by storing the null value itself. -/
structure SavedDoc (K : Type) where
  embedding_dim : Nat
  ids : List String
  matrixRows : List (List K)
  additional : JsonV
deriving DecidableEq, Repr

/-- `NanoVectorDB::save` on the default byte-oriented path (lines
485-516): the document it writes to the store's file. -/
def NanoVectorDB.saveDoc (st : NanoVectorDB K) : SavedDoc K :=
  { embedding_dim := st.embedding_dim
    ids := st.data.map (fun d => d.id)
    matrixRows := st.matrix
    additional := st.additional_data }

/-- The constructor's loading path over a document previously written by
`save`, at row level (lines 79-140): record `i` takes matrix row `i` as
its vector, an absent (null) `additional_data` field leaves the default
empty object, the persisted dimension must equal the configured one, the
row count must equal the record count, and `pre_process` runs last. -/
def constructFromDoc (nf : List K → List K) (dim : Nat)
    (metric path : String) (doc : SavedDoc K) :
    Except String (NanoVectorDB K) :=
  let matrix := doc.matrixRows
  let data := ((List.range doc.ids.length).zip doc.ids).map
    (fun p => Data.mk p.2 (matrix.getD p.1 []))
  let additional := if doc.additional = JsonV.null then JsonV.obj [] else doc.additional
  if doc.embedding_dim ≠ dim then
    .error "Embedding dim mismatch"
  else if matrix.length ≠ data.length then
    .error "Eigen::MatrixXf row count does not match data size"
  else
    match pre_process nf metric matrix with
    | .error e => .error e
    | .ok m2 => .ok ⟨dim, metric, path, data, m2, additional⟩

/-- The `NanoVectorDB` constructor as the manager invokes it (dimension,
metric, path): when the path has no persisted resource, start empty with
a zero-row matrix (lines 141-144); otherwise load and validate the
persisted document. -/
def constructVDB (nf : List K → List K) (dim : Nat) (metric path : String)
    (disk : List (String × SavedDoc K)) : Except String (NanoVectorDB K) :=
  match lookupA disk path with
  | none => .ok ⟨dim, metric, path, [], [], JsonV.obj []⟩
  | some doc => constructFromDoc nf dim metric path doc

/-- Value state of class `MultiTenantNanoVDB` (include/
MultiTenantNanoVDB.hpp lines 266-271) together with a model of the
filesystem it uses: `disk` maps file paths to persisted documents. -/
structure MultiTenantNanoVDB (K : Type) where
  embedding_dim : Nat
  metric : String
  max_capacity : Nat
  storage_dir : String
  storage : List (String × NanoVectorDB K)
  cache_queue : List String
  disk : List (String × SavedDoc K)

/-- `MultiTenantNanoVDB::jsonfile_from_id` (lines 83-86). -/
def jsonfile_from_id (tenant_id : String) : String :=
  "nanovdb_" ++ tenant_id ++ ".json"

/-- The per-tenant storage path `storage_dir_ + "/" + jsonfile_from_id(id)`. -/
def MultiTenantNanoVDB.tenantPath (mt : MultiTenantNanoVDB K)
    (tenant_id : String) : String :=
  mt.storage_dir ++ "/" ++ jsonfile_from_id tenant_id

/-- `MultiTenantNanoVDB::load_tenant_in_cache` (lines 213-249): when the
cache is at or over capacity, evict the front of the insertion-order
queue — persisting the evicted store to its file first — and only then
insert the new tenant.  `front()` on an empty queue is undefined in the
source and unreachable under the queue/map sync invariant; the model
leaves the state unchanged in that case.  Directory creation and the
null-pointer guards have no content in the value model. -/
def MultiTenantNanoVDB.load_tenant_in_cache (mt : MultiTenantNanoVDB K)
    (tenant_id : String) (db : NanoVectorDB K) : MultiTenantNanoVDB K :=
  let mt1 :=
    if mt.max_capacity ≤ mt.storage.length then
      match mt.cache_queue with
      | [] => mt
      | evict_id :: restQ =>
        let mt2 :=
          match lookupA mt.storage evict_id with
          | some evdb =>
            { mt with disk := insertA mt.disk evdb.storage_file evdb.saveDoc }
          | none => mt
        { mt2 with storage := eraseA mt2.storage evict_id, cache_queue := restQ }
    else mt
  { mt1 with
    storage := insertA mt1.storage tenant_id db
    cache_queue := mt1.cache_queue ++ [tenant_id] }

/-- `MultiTenantNanoVDB::contain_tenant` (lines 95-99): cached, or the
persisted file exists. -/
def MultiTenantNanoVDB.contain_tenant (mt : MultiTenantNanoVDB K)
    (tenant_id : String) : Bool :=
  (lookupA mt.storage tenant_id).isSome ||
    (lookupA mt.disk (mt.tenantPath tenant_id)).isSome

/-- `MultiTenantNanoVDB::create_tenant` (lines 106-124), with the
random id made an explicit argument (the source draws it from a static
64-bit generator) and no default strategies configured: construct a
store bound to the per-tenant path (loading any persisted resource
already at that path) and insert it into the cache.  A constructor throw
propagates before any cache mutation. -/
def MultiTenantNanoVDB.create_tenant (nf : List K → List K)
    (mt : MultiTenantNanoVDB K) (tenant_id : String) :
    Except String String × MultiTenantNanoVDB K :=
  match constructVDB nf mt.embedding_dim mt.metric (mt.tenantPath tenant_id) mt.disk with
  | .error e => (.error e, mt)
  | .ok db => (.ok tenant_id, mt.load_tenant_in_cache tenant_id db)

/-- `MultiTenantNanoVDB::get_tenant` (lines 153-173): return the cached
store when cached; otherwise lazily construct it from the persisted file
when that exists and re-insert it into the cache; otherwise fail with
not-found.  All throws precede any cache mutation, so the paired
post-state is the input state on every error. -/
def MultiTenantNanoVDB.get_tenant (nf : List K → List K)
    (mt : MultiTenantNanoVDB K) (tenant_id : String) :
    Except String (NanoVectorDB K) × MultiTenantNanoVDB K :=
  match lookupA mt.storage tenant_id with
  | some db => (.ok db, mt)
  | none =>
    match lookupA mt.disk (mt.tenantPath tenant_id) with
    | some _ =>
      match constructVDB nf mt.embedding_dim mt.metric (mt.tenantPath tenant_id) mt.disk with
      | .error e => (.error e, mt)
      | .ok db => (.ok db, mt.load_tenant_in_cache tenant_id db)
    | none => (.error ("Tenant not found: " ++ tenant_id), mt)

/-- `MultiTenantNanoVDB::delete_tenant` (lines 131-145): fail with
not-found when the tenant is wholly absent; otherwise erase it from the
cache map, drop every occurrence from the queue, and remove the
persisted file. -/
def MultiTenantNanoVDB.delete_tenant (mt : MultiTenantNanoVDB K)
    (tenant_id : String) : Except String Unit × MultiTenantNanoVDB K :=
  if mt.contain_tenant tenant_id then
    (.ok (),
      { mt with
        storage := eraseA mt.storage tenant_id
        cache_queue := mt.cache_queue.filter (fun q => decide (q ≠ tenant_id))
        disk := eraseA mt.disk (mt.tenantPath tenant_id) })
  else (.error ("Tenant does not exist: " ++ tenant_id), mt)

/-- `MultiTenantNanoVDB::save` (lines 178-204): persist every cached
tenant to its own file.  Distinct tenants write distinct paths, so the
unspecified `unordered_map` iteration order is modelled by the cache
insertion order. -/
def MultiTenantNanoVDB.save (mt : MultiTenantNanoVDB K) : MultiTenantNanoVDB K :=
  { mt with
    disk := mt.storage.foldl (fun dk p => insertA dk p.2.storage_file p.2.saveDoc) mt.disk }

/-- The store state the `NanoVectorDB` constructor produces when no
persisted resource exists at its path (lines 141-144): empty records, a
zero-row matrix, the default empty additional-data object. -/
def freshVDB (dim : Nat) (metric path : String) : NanoVectorDB K :=
  ⟨dim, metric, path, [], [], JsonV.obj []⟩

/-- The `MultiTenantNanoVDB` constructor (lines 32-48): validates a
positive dimension, a positive capacity and a non-empty storage
directory (non-positive C++ ints are modelled by zero), and starts with
an empty cache; the filesystem content `disk` is whatever already
exists. -/
def mkMultiTenant (embedding_dim : Nat) (metric : String)
    (max_capacity : Nat) (storage_dir : String)
    (disk : List (String × SavedDoc K)) :
    Except String (MultiTenantNanoVDB K) :=
  if embedding_dim = 0 then .error "Embedding dimension must be positive"
  else if max_capacity = 0 then .error "Max capacity must be positive"
  else if storage_dir = "" then .error "Storage directory must not be empty"
  else .ok ⟨embedding_dim, metric, max_capacity, storage_dir, [], [], disk⟩

end MultiTenant

/-- The cache-coherence invariant of the manager: the insertion-order
queue lists exactly the cached tenant ids, in cache order, without
duplicates. -/
def cacheSync {K : Type} (mt : MultiTenantNanoVDB K) : Prop :=
  mt.storage.map Prod.fst = mt.cache_queue ∧ mt.cache_queue.Nodup

section Runners

variable {K : Type} [LinearOrderedCommRing K]

/-- One mutating store operation, for the operation-sequence claims. -/
inductive VOp (K : Type) where
  | upsert : List (Data K) → VOp K
  | remove : List String → VOp K

/-- Run one store operation.  A C++ exception leaves `this` in the state
it had when the throw propagated, which the error value carries. -/
def runVOp (nf : List K → List K) (hf : K → Nat) (st : NanoVectorDB K) :
    VOp K → NanoVectorDB K
  | .upsert datas =>
    match st.upsert nf hf datas with
    | .ok st2 => st2
    | .error (_, st2) => st2
  | .remove ids => st.remove ids

/-- Run a sequence of store operations. -/
def runVOps (nf : List K → List K) (hf : K → Nat) (st : NanoVectorDB K)
    (ops : List (VOp K)) : NanoVectorDB K :=
  ops.foldl (runVOp nf hf) st

/-- One cache-manager operation, for the operation-sequence claims. -/
inductive MTOp where
  | create : String → MTOp
  | get : String → MTOp
  | delete : String → MTOp
  | save : MTOp

/-- Run one manager operation; every manager throw precedes any cache
mutation, so an error leaves the state unchanged. -/
def runMTOp (nf : List K → List K) (mt : MultiTenantNanoVDB K) :
    MTOp → MultiTenantNanoVDB K
  | .create id => (mt.create_tenant nf id).2
  | .get id => (mt.get_tenant nf id).2
  | .delete id => (mt.delete_tenant id).2
  | .save => mt.save

/-- Run a sequence of manager operations. -/
def runMTOps (nf : List K → List K) (mt : MultiTenantNanoVDB K)
    (ops : List MTOp) : MultiTenantNanoVDB K :=
  ops.foldl (runMTOp nf) mt

/-- Create a sequence of tenants with the given (injected random) ids,
stopping at the first constructor failure. -/
def createAll (nf : List K → List K) :
    MultiTenantNanoVDB K → List String →
    Except String (MultiTenantNanoVDB K)
  | mt, [] => .ok mt
  | mt, id :: ids =>
    match mt.create_tenant nf id with
    | (.error e, _) => .error e
    | (.ok _, mt2) => createAll nf mt2 ids

/-- Each `create` in the sequence uses an id that is fresh at its point
of execution — the model of the source drawing a fresh random uuid. -/
def freshOk (nf : List K → List K) :
    MultiTenantNanoVDB K → List MTOp → Prop
  | _, [] => True
  | mt, op :: rest =>
    (match op with
      | MTOp.create id => id ∉ mt.cache_queue
      | _ => True) ∧
    freshOk nf (runMTOp nf mt op) rest

end Runners

/-- The number of records of the store carrying a given id. -/
def countId {K : Type} (st : NanoVectorDB K) (id : String) : Nat :=
  (st.data.filter (fun d => decide (d.id = id))).length

/-- The row/record alignment invariant of the store (spec §3): the matrix
has one row per record, and row `i` holds the vector of record `i`. -/
def aligned {K : Type} (st : NanoVectorDB K) : Prop :=
  st.matrix.length = st.data.length ∧
  ∀ i, i < st.data.length →
    st.matrix.getD i [] = (st.data.getD i default).vector

/-! ## Theorems settling the claims -/

section Claims

theorem getD_set_self {α : Type} (l : List α) (i : Nat) (a d : α)
    (h : i < l.length) : (l.set i a).getD i d = a := by
  simp [List.getD, List.getElem?_set_self, h]

theorem getD_set_ne {α : Type} (l : List α) (i j : Nat) (a d : α)
    (h : i ≠ j) : (l.set i a).getD j d = l.getD j d := by
  simp [List.getD, List.getElem?_set_ne, h]

theorem getD_map_of_lt {α β : Type} (f : α → β) (l : List α) (j : Nat)
    (hj : j < l.length) (d : β) (e : α) :
    (l.map f).getD j d = f (l.getD j e) := by
  simp [List.getD, List.getElem?_map, List.getElem?_eq_getElem, hj]

theorem getD_mem {α : Type} (l : List α) (j : Nat) (d : α)
    (hj : j < l.length) : l.getD j d ∈ l := by
  rw [List.getD_eq_getElem l d hj]
  exact List.getElem_mem hj

theorem getD_append_left {α : Type} (l m : List α) (j : Nat)
    (hj : j < l.length) (d : α) : (l ++ m).getD j d = l.getD j d := by
  simp [List.getD, List.getElem?_append_left hj]

theorem getD_append_last {α : Type} (l : List α) (a d : α) :
    (l ++ [a]).getD l.length d = a := by
  simp [List.getD, List.getElem?_append_right (le_refl l.length)]

/-- A successful map lookup finds a pair of the list. -/
theorem lookupA_some_mem {α : Type} :
    ∀ (m : List (String × α)) (key : String) (v : α),
    lookupA m key = some v → (key, v) ∈ m := by
  intro m key v
  induction m with
  | nil => intro h; cases h
  | cons p rest ih =>
    obtain ⟨k, w⟩ := p
    intro h
    by_cases hk : k = key
    · simp only [lookupA, hk, if_true, Option.some.injEq] at h
      subst hk
      subst h
      exact List.mem_cons_self _ _
    · simp only [lookupA, hk, if_false] at h
      exact List.mem_cons_of_mem _ (ih h)

/-- Map assignment preserves a property of all stored values. -/
theorem insertA_forall {α : Type} (P : α → Prop) :
    ∀ (m : List (String × α)) (key : String) (v : α),
    (∀ p ∈ m, P p.2) → P v → ∀ p ∈ insertA m key v, P p.2 := by
  intro m key v
  induction m with
  | nil =>
    intro _ hv p hp
    simp only [insertA] at hp
    rcases List.mem_singleton.mp hp with rfl
    exact hv
  | cons q rest ih =>
    obtain ⟨k, w⟩ := q
    intro hall hv p hp
    by_cases hk : k = key
    · simp only [insertA, hk, if_true] at hp
      rcases List.mem_cons.mp hp with rfl | hp2
      · exact hv
      · exact hall p (List.mem_cons_of_mem _ hp2)
    · simp only [insertA, hk, if_false] at hp
      rcases List.mem_cons.mp hp with rfl | hp2
      · exact hall (k, w) (List.mem_cons_self _ _)
      · exact ih (fun r hr => hall r (List.mem_cons_of_mem _ hr)) hv p hp2

/-- Every value of the map built by the first upsert phase has a vector
of the configured dimension. -/
theorem buildIndex_ok_values {K : Type} [LinearOrderedCommRing K]
    (hf : K → Nat) (N : Nat) :
    ∀ (datas : List (Data K)) (acc m : List (String × Data K)),
    (∀ p ∈ acc, p.2.vector.length = N) →
    buildIndex hf N acc datas = .ok m →
    ∀ p ∈ m, p.2.vector.length = N := by
  intro datas
  induction datas with
  | nil =>
    intro acc m hacc h
    simp only [buildIndex, Except.ok.injEq] at h
    subst h
    exact hacc
  | cons d ds ih =>
    intro acc m hacc h
    by_cases hdl : d.vector.length ≠ N
    · simp [buildIndex, hdl] at h
    · push_neg at hdl
      cases hh : (if d.id = "" then hash_vector hf d.vector else .ok d.id) with
      | error e => simp [buildIndex, hdl, hh] at h
      | ok id =>
        simp only [buildIndex, hdl, ne_eq, not_true_eq_false, if_false, hh] at h
        exact ih _ m
          (insertA_forall (fun r => r.vector.length = N) acc id
            { d with id := id } hacc hdl) h

/-- A successful normalization returns the abstracted normalized
vector. -/
theorem normalize_ok {K : Type} [LinearOrderedCommRing K]
    (nf : List K → List K) (w v : List K) (h : normalize nf w = .ok v) :
    v = nf w := by
  unfold normalize at h
  by_cases h0 : w.length = 0
  · simp [h0] at h
  · by_cases hs : normSq w = 0
    · simp [h0, hs] at h
    · simp only [h0, hs, if_false, Except.ok.injEq] at h
      exact h.symm

/-- Under a length-preserving normalization, the second upsert phase
preserves the dimension of every map value. -/
theorem normalizeValues_ok_values {K : Type} [LinearOrderedCommRing K]
    (nf : List K → List K) (hnorm : ∀ v, (nf v).length = v.length) (N : Nat) :
    ∀ (m m2 : List (String × Data K)),
    (∀ p ∈ m, p.2.vector.length = N) → normalizeValues nf m = .ok m2 →
    ∀ p ∈ m2, p.2.vector.length = N := by
  intro m
  induction m with
  | nil =>
    intro m2 _ h
    simp only [normalizeValues, Except.ok.injEq] at h
    subst h
    intro p hp
    cases hp
  | cons q rest ih =>
    obtain ⟨id, d⟩ := q
    intro m2 hall h
    cases hn : normalize nf d.vector with
    | error e => simp [normalizeValues, hn] at h
    | ok v =>
      cases hrest : normalizeValues nf rest with
      | error e => simp [normalizeValues, hn, hrest] at h
      | ok rest2 =>
        simp only [normalizeValues, hn, hrest, Except.ok.injEq] at h
        subst h
        intro p hp
        rcases List.mem_cons.mp hp with rfl | hp2
        · have := normalize_ok nf d.vector v hn
          subst this
          simp only [hnorm]
          exact hall (id, d) (List.mem_cons_self _ _)
        · exact ih rest2 (fun r hr => hall r (List.mem_cons_of_mem _ hr)) hrest p hp2

/-- When every map value has the configured dimension, the update loop
of upsert succeeds and preserves alignment, the record count, the
dimension and the metric. -/
theorem updFrom_ok_aligned {K : Type} [LinearOrderedCommRing K] (N : Nat)
    (m : List (String × Data K)) (hm : ∀ p ∈ m, p.2.vector.length = N) :
    ∀ (fuel i : Nat) (st : NanoVectorDB K) (upd : List String),
    aligned st → i + fuel = st.data.length →
    ∃ st2 upd2, updFrom N m i fuel (st, upd) = .ok (st2, upd2) ∧
      aligned st2 ∧ st2.data.length = st.data.length ∧
      st2.embedding_dim = st.embedding_dim ∧ st2.metric = st.metric := by
  intro fuel
  induction fuel with
  | zero =>
    intro i st upd hal _
    exact ⟨st, upd, rfl, hal, rfl, rfl, rfl⟩
  | succ fuel ih =>
    intro i st upd hal hlen
    have hi : i < st.data.length := by omega
    cases hlk : lookupA m (st.data.getD i default).id with
    | none =>
      have hstep : updStep N m (st, upd) i = .ok (st, upd) := by
        simp only [updStep, hlk]
      obtain ⟨st2, upd2, h2, hal2, hl2, hd2, hm2⟩ :=
        ih (i + 1) st upd hal (by omega)
      refine ⟨st2, upd2, ?_, hal2, hl2, hd2, hm2⟩
      rw [updFrom, hstep]
      exact h2
    | some e =>
      have hel : e.vector.length = N := hm _ (lookupA_some_mem m _ e hlk)
      have hstep : updStep N m (st, upd) i =
          .ok ({ st with
              data := st.data.set i e
              matrix := st.matrix.set i e.vector },
            upd ++ [(st.data.getD i default).id]) := by
        simp only [updStep, hlk]
        rw [if_neg (fun h => h hel)]
      obtain ⟨hml, hpt⟩ := hal
      have hal1 : aligned { st with
          data := st.data.set i e
          matrix := st.matrix.set i e.vector } := by
        constructor
        · simp [hml]
        · intro j hj
          simp only [List.length_set] at hj
          by_cases hji : j = i
          · subst hji
            rw [getD_set_self _ _ _ _ (by rw [hml]; exact hj),
              getD_set_self _ _ _ _ hj]
          · rw [getD_set_ne _ _ _ _ _ (fun hij => hji hij.symm),
              getD_set_ne _ _ _ _ _ (fun hij => hji hij.symm)]
            exact hpt j hj
      obtain ⟨st2, upd2, h2, hal2, hl2, hd2, hm2⟩ :=
        ih (i + 1) _ (upd ++ [(st.data.getD i default).id]) hal1
          (by simp only [List.length_set]; omega)
      refine ⟨st2, upd2, ?_, hal2, by simpa using hl2, hd2, hm2⟩
      rw [updFrom, hstep]
      exact h2

/-- When every map value has the configured dimension, the insert loop
of upsert succeeds and preserves alignment, the dimension and the
metric. -/
theorem insertNew_ok_aligned {K : Type} [LinearOrderedCommRing K] (N : Nat) :
    ∀ (m : List (String × Data K)) (upd : List String) (st : NanoVectorDB K),
    (∀ p ∈ m, p.2.vector.length = N) → aligned st →
    ∃ st2, insertNew N m upd st = .ok st2 ∧ aligned st2 ∧
      st2.embedding_dim = st.embedding_dim ∧ st2.metric = st.metric := by
  intro m
  induction m with
  | nil =>
    intro upd st _ hal
    exact ⟨st, rfl, hal, rfl, rfl⟩
  | cons p rest ih =>
    obtain ⟨id, d⟩ := p
    intro upd st hm hal
    by_cases hid : id ∈ upd
    · have heq : insertNew N ((id, d) :: rest) upd st =
          insertNew N rest upd st := by
        simp [insertNew, hid]
      rw [heq]
      exact ih upd st (fun r hr => hm r (List.mem_cons_of_mem _ hr)) hal
    · have hdl : d.vector.length = N := hm (id, d) (List.mem_cons_self _ _)
      have heq : insertNew N ((id, d) :: rest) upd st = insertNew N rest upd
          { st with
            data := st.data ++ [d]
            matrix := st.matrix ++ [d.vector] } := by
        simp only [insertNew, hid, if_false]
        rw [if_neg (fun h => h hdl)]
      rw [heq]
      obtain ⟨hml, hpt⟩ := hal
      have hal1 : aligned { st with
          data := st.data ++ [d]
          matrix := st.matrix ++ [d.vector] } := by
        constructor
        · simp [hml]
        · intro j hj
          simp only [List.length_append, List.length_cons, List.length_nil] at hj
          by_cases hjl : j < st.data.length
          · rw [getD_append_left _ _ _ (by rw [hml]; exact hjl) _,
              getD_append_left _ _ _ hjl _]
            exact hpt j hjl
          · have hje : j = st.data.length := by omega
            subst hje
            have hlhs : (st.matrix ++ [d.vector]).getD st.data.length [] = d.vector := by
              rw [← hml]
              exact getD_append_last _ _ _
            rw [hlhs, getD_append_last]
      obtain ⟨st2, h2, hal2, hd2, hm2⟩ :=
        ih upd _ (fun r hr => hm r (List.mem_cons_of_mem _ hr)) hal1
      exact ⟨st2, h2, hal2, hd2, hm2⟩

/-- Running an upsert — including a failing one — preserves alignment,
the dimension and the metric, when the abstract normalization preserves
vector length (as division by the norm does). -/
theorem upsert_run_aligned {K : Type} [LinearOrderedCommRing K]
    (nf : List K → List K) (hf : K → Nat)
    (hnorm : ∀ v, (nf v).length = v.length)
    (st : NanoVectorDB K) (datas : List (Data K)) (hal : aligned st) :
    aligned (runVOp nf hf st (.upsert datas)) ∧
      (runVOp nf hf st (.upsert datas)).embedding_dim = st.embedding_dim := by
  cases hb : buildIndex hf st.embedding_dim [] datas with
  | error msg =>
    have hu : st.upsert nf hf datas = .error (msg, st) := by
      simp [NanoVectorDB.upsert, hb]
    constructor
    · simpa [runVOp, hu] using hal
    · simp [runVOp, hu]
  | ok m0 =>
    have hm0 : ∀ p ∈ m0, p.2.vector.length = st.embedding_dim :=
      buildIndex_ok_values hf _ datas [] m0 (by intro p hp; cases hp) hb
    cases hcos : (if st.metric = "cosine" then normalizeValues nf m0 else .ok m0) with
    | error msg =>
      have hu : st.upsert nf hf datas = .error (msg, st) := by
        simp [NanoVectorDB.upsert, hb, hcos]
      constructor
      · simpa [runVOp, hu] using hal
      · simp [runVOp, hu]
    | ok m =>
      have hmv : ∀ p ∈ m, p.2.vector.length = st.embedding_dim := by
        by_cases hc : st.metric = "cosine"
        · rw [if_pos hc] at hcos
          exact normalizeValues_ok_values nf hnorm _ m0 m hm0 hcos
        · rw [if_neg hc] at hcos
          cases hcos
          exact hm0
      obtain ⟨st1, upd, hupd, hal1, _, hd1, hmet1⟩ :=
        updFrom_ok_aligned st.embedding_dim m hmv st.data.length 0 st [] hal
          (by omega)
      obtain ⟨st2, hins, hal2, hd2, _⟩ :=
        insertNew_ok_aligned st.embedding_dim m upd st1 hmv hal1
      have hu : st.upsert nf hf datas = .ok st2 := by
        simp [NanoVectorDB.upsert, hb, hcos, hupd, hins]
      constructor
      · simpa [runVOp, hu] using hal2
      · simp [runVOp, hu, hd2, hd1]

/-- Removal preserves alignment and the dimension. -/
theorem remove_aligned {K : Type} [LinearOrderedCommRing K]
    (st : NanoVectorDB K) (ids : List String) (hal : aligned st) :
    aligned (st.remove ids) ∧
      (st.remove ids).embedding_dim = st.embedding_dim := by
  obtain ⟨hml, hpt⟩ := hal
  refine ⟨⟨by simp [NanoVectorDB.remove], ?_⟩, rfl⟩
  intro j hj
  simp only [NanoVectorDB.remove, List.length_map] at hj ⊢
  rw [getD_map_of_lt _ _ j hj _ 0, getD_map_of_lt _ _ j hj _ 0]
  have hkmem : (keepIndices st ids).getD j 0 ∈ keepIndices st ids :=
    getD_mem _ _ _ hj
  have hklt : (keepIndices st ids).getD j 0 < st.data.length := by
    have hmem := List.mem_filter.mp hkmem
    exact List.mem_range.mp hmem.1
  exact hpt _ hklt

/-- Claim C1: starting from any store satisfying the row/record
invariant, every sequence of upserts and removes whose vectors have the
store dimension leaves, after each operation, the matrix with exactly one
row per record and row `i` equal to the vector of record `i`.  The
hypothesis `hnorm` states that the abstracted normalization preserves
vector length, as `v / v.norm()` does. -/
theorem ops_row_record_alignment {K : Type} [LinearOrderedCommRing K]
    (nf : List K → List K) (hf : K → Nat)
    (hnorm : ∀ v, (nf v).length = v.length) :
    ∀ (ops : List (VOp K)) (st : NanoVectorDB K), aligned st →
    (∀ datas, VOp.upsert datas ∈ ops → ∀ d ∈ datas,
      d.vector.length = st.embedding_dim) →
    ∀ n, aligned (runVOps nf hf st (ops.take n)) := by
  intro ops
  induction ops with
  | nil =>
    intro st hal _ n
    simpa [runVOps] using hal
  | cons op rest ih =>
    intro st hal hdims n
    cases n with
    | zero => simpa [runVOps] using hal
    | succ n =>
      rw [List.take_succ_cons]
      have hstep : aligned (runVOp nf hf st op) ∧
          (runVOp nf hf st op).embedding_dim = st.embedding_dim := by
        cases op with
        | upsert datas => exact upsert_run_aligned nf hf hnorm st datas hal
        | remove ids => exact remove_aligned st ids hal
      have hrw : runVOps nf hf st (op :: List.take n rest) =
          runVOps nf hf (runVOp nf hf st op) (List.take n rest) := rfl
      rw [hrw]
      refine ih (runVOp nf hf st op) hstep.1 ?_ n
      intro datas hmem d hd
      rw [hstep.2]
      exact hdims datas (List.mem_cons_of_mem _ hmem) d hd

/-- Witness for C1 at a concrete input: an empty dimension-1 cosine
store, an upsert of one record followed by a remove. -/
theorem ops_row_record_alignment_witness :
    aligned (runVOps (K := Int) (fun v => v) (fun _ => 0)
      ⟨1, "cosine", "f", [], [], JsonV.obj []⟩
      ([VOp.upsert [⟨"a", [2]⟩], VOp.remove ["a"]].take 2)) :=
  ops_row_record_alignment (fun v => v) (fun _ => 0) (fun _ => rfl)
    [VOp.upsert [⟨"a", [2]⟩], VOp.remove ["a"]]
    ⟨1, "cosine", "f", [], [], JsonV.obj []⟩
    ⟨rfl, fun i hi => absurd hi (Nat.not_lt_zero i)⟩
    (by
      intro datas hmem d hd
      rcases List.mem_cons.mp hmem with h | h
      · cases h
        simp only [List.mem_singleton] at hd
        subst hd
        rfl
      · rcases List.mem_singleton.mp h with h2
        cases h2)
    2

/-- Replacing a list element by one with the same predicate value leaves
the filtered length unchanged. -/
theorem filter_length_set {α : Type} (p : α → Bool) :
    ∀ (l : List α) (i : Nat) (a d : α), i < l.length →
    p (l.getD i d) = p a →
    ((l.set i a).filter p).length = (l.filter p).length := by
  intro l
  induction l with
  | nil => intro i a d hi; cases hi
  | cons x xs ih =>
    intro i a d hi hp
    cases i with
    | zero =>
      simp only [List.getD, List.getElem?_cons_zero, Option.getD_some] at hp
      simp only [List.set]
      cases hx : p x <;> cases ha : p a <;>
        simp [List.filter, hx, ha, hx ▸ hp ▸ ha]
    | succ n =>
      simp only [List.getD, List.getElem?_cons_succ] at hp
      simp only [List.length_cons, Nat.succ_lt_succ_iff] at hi
      simp only [List.set]
      cases hx : p x <;>
        simp [List.filter, hx, ih n a d hi hp]

/-- The record count of an id is positive exactly when some store index
holds that id. -/
theorem countId_pos_iff {K : Type} (st : NanoVectorDB K) (h : String) :
    0 < countId st h ↔
      ∃ j, j < st.data.length ∧ (st.data.getD j default).id = h := by
  unfold countId
  constructor
  · intro hpos
    have hne : st.data.filter (fun d => decide (d.id = h)) ≠ [] := by
      intro hnil
      rw [hnil] at hpos
      simp at hpos
    obtain ⟨x, hx⟩ := List.exists_mem_of_ne_nil _ hne
    have hx2 := List.mem_filter.mp hx
    obtain ⟨j, hj, hget⟩ := List.mem_iff_getElem.mp hx2.1
    refine ⟨j, hj, ?_⟩
    rw [List.getD_eq_getElem _ _ hj, hget]
    exact of_decide_eq_true hx2.2
  · rintro ⟨j, hj, hid⟩
    have hmem : st.data.getD j default ∈
        st.data.filter (fun d => decide (d.id = h)) :=
      List.mem_filter.mpr ⟨getD_mem _ _ _ hj, decide_eq_true hid⟩
    have := List.ne_nil_of_mem hmem
    exact List.length_pos.mpr this

/-- Effect of the update loop under a singleton incoming map: the
success state, the preserved count of the map id, and the updated-set
characterization. -/
theorem updFrom_singleton {K : Type} [LinearOrderedCommRing K] (N : Nat)
    (h : String) (e : Data K) (he : e.id = h) (hel : e.vector.length = N) :
    ∀ (fuel i : Nat) (st : NanoVectorDB K) (upd : List String),
    i + fuel = st.data.length →
    ∃ st1 upd1, updFrom N [(h, e)] i fuel (st, upd) = .ok (st1, upd1) ∧
      countId st1 h = countId st h ∧
      st1.embedding_dim = st.embedding_dim ∧
      (h ∈ upd1 ↔ h ∈ upd ∨ ∃ j, i ≤ j ∧ j < st.data.length ∧
        (st.data.getD j default).id = h) := by
  intro fuel
  induction fuel with
  | zero =>
    intro i st upd hlen
    refine ⟨st, upd, rfl, rfl, rfl, ?_⟩
    constructor
    · exact Or.inl
    · rintro (hu | ⟨j, hij, hjl, _⟩)
      · exact hu
      · omega
  | succ fuel ih =>
    intro i st upd hlen
    have hi : i < st.data.length := by omega
    by_cases hd0 : (st.data.getD i default).id = h
    · have hlk : lookupA [(h, e)] (st.data.getD i default).id = some e := by
        simp only [lookupA]
        rw [if_pos hd0.symm]
      have hstep : updStep N [(h, e)] (st, upd) i =
          .ok ({ st with
              data := st.data.set i e
              matrix := st.matrix.set i e.vector },
            upd ++ [(st.data.getD i default).id]) := by
        simp only [updStep, hlk]
        rw [if_neg (fun hc => hc hel)]
      obtain ⟨st1, upd1, h1, hc1, hd1, hiff1⟩ :=
        ih (i + 1)
          { st with
            data := st.data.set i e
            matrix := st.matrix.set i e.vector }
          (upd ++ [(st.data.getD i default).id])
          (by simp only [List.length_set]; omega)
      refine ⟨st1, upd1, ?_, ?_, hd1, ?_⟩
      · rw [updFrom, hstep]
        exact h1
      · rw [hc1]
        unfold countId
        exact filter_length_set _ st.data i e default hi
          (by rw [hd0, he])
      · rw [hiff1]
        constructor
        · intro _
          exact Or.inr ⟨i, le_refl i, hi, hd0⟩
        · intro _
          left
          rw [hd0]
          exact List.mem_append_right _ (List.mem_singleton.mpr rfl)
    · have hlk : lookupA [(h, e)] (st.data.getD i default).id = none := by
        simp only [lookupA]
        rw [if_neg (fun hc => hd0 hc.symm)]
      have hstep : updStep N [(h, e)] (st, upd) i = .ok (st, upd) := by
        simp only [updStep, hlk]
      obtain ⟨st1, upd1, h1, hc1, hd1, hiff1⟩ :=
        ih (i + 1) st upd (by omega)
      refine ⟨st1, upd1, ?_, hc1, hd1, ?_⟩
      · rw [updFrom, hstep]
        exact h1
      · rw [hiff1]
        constructor
        · rintro (hu | ⟨j, hij, hjl, hjid⟩)
          · exact Or.inl hu
          · exact Or.inr ⟨j, by omega, hjl, hjid⟩
        · rintro (hu | ⟨j, hij, hjl, hjid⟩)
          · exact Or.inl hu
          · refine Or.inr ⟨j, ?_, hjl, hjid⟩
            rcases Nat.eq_or_lt_of_le hij with rfl | hlt
            · exact absurd hjid hd0
            · omega

/-- Effect of the insert loop under a singleton incoming map: a no-op
when the id was updated in place, a single append otherwise. -/
theorem insertNew_singleton {K : Type} [LinearOrderedCommRing K] (N : Nat)
    (h : String) (e : Data K) (hel : e.vector.length = N)
    (upd : List String) (st : NanoVectorDB K) :
    (h ∈ upd → insertNew N [(h, e)] upd st = .ok st) ∧
    (h ∉ upd → insertNew N [(h, e)] upd st = .ok { st with
      data := st.data ++ [e]
      matrix := st.matrix ++ [e.vector] }) := by
  constructor
  · intro hin
    simp [insertNew, hin]
  · intro hin
    simp only [insertNew, hin, if_false]
    rw [if_neg (fun hc => hc hel)]

/-- Effect of a successful upsert of a batch that collapses to the
single unlabeled vector `v`: the store ends with exactly one record
under the content-derived id, provided it held at most one before. -/
theorem upsert_unlabeled_count {K : Type} [LinearOrderedCommRing K]
    (nf : List K → List K) (hf : K → Nat)
    (hnorm : ∀ w, (nf w).length = w.length)
    (st : NanoVectorDB K) (batch : List (Data K)) (v : List K)
    (hbuild : buildIndex hf st.embedding_dim [] batch =
      .ok [(hashHex hf v, ⟨hashHex hf v, v⟩)])
    (hv : v.length = st.embedding_dim)
    (hcount : countId st (hashHex hf v) ≤ 1)
    (st2 : NanoVectorDB K) (hok : st.upsert nf hf batch = .ok st2) :
    countId st2 (hashHex hf v) = 1 ∧
      st2.embedding_dim = st.embedding_dim := by
  simp only [NanoVectorDB.upsert, hbuild] at hok
  cases hcos : (if st.metric = "cosine"
      then normalizeValues nf [(hashHex hf v, ⟨hashHex hf v, v⟩)]
      else .ok [(hashHex hf v, ⟨hashHex hf v, v⟩)]) with
  | error msg =>
    rw [hcos] at hok
    cases hok
  | ok m =>
    rw [hcos] at hok
    simp only [] at hok
    have hm : ∃ e : Data K, m = [(hashHex hf v, e)] ∧ e.id = hashHex hf v ∧
        e.vector.length = st.embedding_dim := by
      by_cases hc : st.metric = "cosine"
      · rw [if_pos hc] at hcos
        cases hn : normalize nf (v : List K) with
        | error er => simp [normalizeValues, hn] at hcos
        | ok w =>
          have hw := normalize_ok nf v w hn
          subst hw
          refine ⟨⟨hashHex hf v, nf v⟩, ?_, rfl, by rw [hnorm]; exact hv⟩
          simp only [normalizeValues, hn, normalizeValues, Except.ok.injEq] at hcos
          exact hcos.symm
      · rw [if_neg hc] at hcos
        cases hcos
        exact ⟨⟨hashHex hf v, v⟩, rfl, rfl, hv⟩
    obtain ⟨e, rfl, he, hel⟩ := hm
    obtain ⟨st1, upd1, hupd, hcnt1, hdim1, hiff⟩ :=
      updFrom_singleton st.embedding_dim (hashHex hf v) e he hel
        st.data.length 0 st [] (by omega)
    rw [hupd] at hok
    simp only [] at hok
    by_cases hin : hashHex hf v ∈ upd1
    · rw [(insertNew_singleton st.embedding_dim _ e hel upd1 st1).1 hin] at hok
      cases hok
      refine ⟨?_, hdim1⟩
      have hex : ∃ j, j < st.data.length ∧
          (st.data.getD j default).id = hashHex hf v := by
        rcases hiff.mp hin with hu | hex
        · cases hu
        · obtain ⟨j, _, hjl, hjid⟩ := hex
          exact ⟨j, hjl, hjid⟩
      have hpos := (countId_pos_iff st (hashHex hf v)).mpr hex
      omega
    · rw [(insertNew_singleton st.embedding_dim _ e hel upd1 st1).2 hin] at hok
      cases hok
      constructor
      · have hz : countId st (hashHex hf v) = 0 := by
          by_contra hnz
          have hpos : 0 < countId st (hashHex hf v) := Nat.pos_of_ne_zero hnz
          obtain ⟨j, hjl, hjid⟩ := (countId_pos_iff st (hashHex hf v)).mp hpos
          exact hin (hiff.mpr (Or.inr ⟨j, Nat.zero_le j, hjl, hjid⟩))
        have happ : countId { st1 with
            data := st1.data ++ [e]
            matrix := st1.matrix ++ [e.vector] } (hashHex hf v) =
            countId st1 (hashHex hf v) + 1 := by
          simp [countId, List.filter_append, he]
        rw [happ, hcnt1, hz]
      · exact hdim1

/-- The first upsert phase on one unlabeled record with vector `v` of
the store dimension builds the singleton map under the content-derived
id. -/
theorem buildIndex_unlabeled_single {K : Type} [LinearOrderedCommRing K]
    (hf : K → Nat) (N : Nat) (v : List K) (hv : v.length = N)
    (hv0 : v.length ≠ 0) :
    buildIndex hf N [] [⟨"", v⟩] =
      .ok [(hashHex hf v, ⟨hashHex hf v, v⟩)] := by
  have hN0 : ¬ N = 0 := by rw [← hv]; exact hv0
  simp [buildIndex, hash_vector, insertA, hv, hN0]

/-- The first upsert phase on two unlabeled records with the same vector
`v` collapses the batch to the same singleton map: the second record
overrides the first under the same content-derived id. -/
theorem buildIndex_unlabeled_double {K : Type} [LinearOrderedCommRing K]
    (hf : K → Nat) (N : Nat) (v : List K) (hv : v.length = N)
    (hv0 : v.length ≠ 0) :
    buildIndex hf N [] [⟨"", v⟩, ⟨"", v⟩] =
      .ok [(hashHex hf v, ⟨hashHex hf v, v⟩)] := by
  have hN0 : ¬ N = 0 := by rw [← hv]; exact hv0
  simp [buildIndex, hash_vector, insertA, hv, hN0]

/-- Claim C8: two upserted records with empty id and identical vectors of
the store dimension — in the same batch or in two successive batches —
are both assigned the same content-derived id `hashHex hf v`, and the
store ends up holding exactly one record with that id, provided it held
at most one before (as any store built through the API does, ids being
unique). -/
theorem unlabeled_identical_vectors_collapse {K : Type}
    [LinearOrderedCommRing K] (nf : List K → List K) (hf : K → Nat)
    (hnorm : ∀ w, (nf w).length = w.length)
    (st : NanoVectorDB K) (v : List K)
    (hv : v.length = st.embedding_dim) (hv0 : v.length ≠ 0)
    (hcount : countId st (hashHex hf v) ≤ 1) :
    (∀ st2, st.upsert nf hf [⟨"", v⟩, ⟨"", v⟩] = .ok st2 →
      countId st2 (hashHex hf v) = 1) ∧
    (∀ st1 st2, st.upsert nf hf [⟨"", v⟩] = .ok st1 →
      st1.upsert nf hf [⟨"", v⟩] = .ok st2 →
      countId st2 (hashHex hf v) = 1) := by
  constructor
  · intro st2 hok
    exact (upsert_unlabeled_count nf hf hnorm st _ v
      (buildIndex_unlabeled_double hf st.embedding_dim v hv hv0)
      hv hcount st2 hok).1
  · intro st1 st2 h1 h2
    obtain ⟨hc1, hd1⟩ := upsert_unlabeled_count nf hf hnorm st _ v
      (buildIndex_unlabeled_single hf st.embedding_dim v hv hv0)
      hv hcount st1 h1
    have hv1 : v.length = st1.embedding_dim := by
      rw [hd1]; exact hv
    exact (upsert_unlabeled_count nf hf hnorm st1 _ v
      (buildIndex_unlabeled_single hf st1.embedding_dim v hv1 hv0)
      hv1 (by omega) st2 h2).1

/-- Witness for C8 at a concrete input: the empty dimension-1 cosine
store and the vector `[2]`. -/
theorem unlabeled_identical_vectors_collapse_witness :
    (∀ st2, NanoVectorDB.upsert (K := Int) (fun w => w) (fun _ => 0)
      ⟨1, "cosine", "f", [], [], JsonV.obj []⟩
      [⟨"", [2]⟩, ⟨"", [2]⟩] = .ok st2 →
      countId st2 (hashHex (fun _ => 0) [2]) = 1) ∧
    (∀ st1 st2, NanoVectorDB.upsert (K := Int) (fun w => w) (fun _ => 0)
      ⟨1, "cosine", "f", [], [], JsonV.obj []⟩ [⟨"", [2]⟩] = .ok st1 →
      st1.upsert (fun w => w) (fun _ => 0) [⟨"", [2]⟩] = .ok st2 →
      countId st2 (hashHex (fun _ => 0) [2]) = 1) :=
  unlabeled_identical_vectors_collapse (fun w => w) (fun _ => 0)
    (fun _ => rfl) ⟨1, "cosine", "f", [], [], JsonV.obj []⟩ [2]
    (by decide) (by decide) (by decide)

end Claims

section Claims2

/-- If some record of the batch has a vector of the wrong length, the
first phase of upsert throws before building the rest of the map. -/
theorem buildIndex_error {K : Type} [LinearOrderedCommRing K]
    (hf : K → Nat) (N : Nat) (acc : List (String × Data K))
    (datas : List (Data K)) (hbad : ∃ d ∈ datas, d.vector.length ≠ N) :
    ∃ msg, buildIndex hf N acc datas = .error msg := by
  induction datas generalizing acc with
  | nil =>
    obtain ⟨d, hd, _⟩ := hbad
    cases hd
  | cons d ds ih =>
    obtain ⟨e, he, hlen⟩ := hbad
    by_cases hdl : d.vector.length ≠ N
    · refine ⟨"Eigen::VectorXf dimension mismatch in upsert: expected " ++
        toString N ++ ", got " ++ toString d.vector.length, ?_⟩
      simp [buildIndex, hdl]
    · push_neg at hdl
      rcases List.mem_cons.mp he with rfl | hmem
      · exact absurd hdl hlen
      · cases hh : (if d.id = "" then hash_vector hf d.vector else .ok d.id) with
        | error e1 => exact ⟨e1, by simp [buildIndex, hdl, hh]⟩
        | ok id =>
          obtain ⟨msg, hmsg⟩ := ih (insertA acc id { d with id := id }) ⟨e, hmem, hlen⟩
          exact ⟨msg, by simp [buildIndex, hdl, hh, hmsg]⟩

/-- Claim C2: a batch containing a record whose vector length differs
from the store dimension makes the whole upsert fail, with the record
list and matrix left exactly as they were (the error carries the
unchanged input state). -/
theorem upsert_dim_mismatch_no_mutation {K : Type} [LinearOrderedCommRing K]
    (nf : List K → List K) (hf : K → Nat) (st : NanoVectorDB K)
    (datas : List (Data K)) (d : Data K) (hd : d ∈ datas)
    (hlen : d.vector.length ≠ st.embedding_dim) :
    ∃ msg, st.upsert nf hf datas = .error (msg, st) := by
  obtain ⟨msg, hmsg⟩ :=
    buildIndex_error hf st.embedding_dim [] datas ⟨d, hd, hlen⟩
  exact ⟨msg, by simp [NanoVectorDB.upsert, hmsg]⟩

/-- Witness for C2 at a concrete input: a dimension-2 store receives a
batch with a length-1 vector and the upsert fails with the state
unchanged. -/
theorem upsert_dim_mismatch_no_mutation_witness :
    ∃ msg, NanoVectorDB.upsert (fun v => v) (fun _ => 0)
      (⟨2, "cosine", "f", [], [], JsonV.obj []⟩ : NanoVectorDB Int)
      [⟨"a", [1]⟩] =
      .error (msg, ⟨2, "cosine", "f", [], [], JsonV.obj []⟩) :=
  upsert_dim_mismatch_no_mutation (fun v => v) (fun _ => 0) _ _ ⟨"a", [1]⟩
    (by decide) (by decide)

/-- Claim C9: `clear()` drops all records, resets the matrix to zero
rows, leaves the configured dimension unchanged, and `size()` returns 0
afterward. -/
theorem clear_resets {K : Type} (st : NanoVectorDB K) :
    st.clear.data = [] ∧ st.clear.matrix = [] ∧
    st.clear.embedding_dim = st.embedding_dim ∧ st.clear.size = 0 := by
  simp [NanoVectorDB.clear, NanoVectorDB.size]

/-- Every result the emission loop accepts under a threshold passed its
own score check. -/
theorem emitLoop_score_ge {K : Type} [LinearOrderedCommRing K]
    (data : List (Data K)) (t : K) :
    ∀ (n : Nat) (l : List (Nat × K)) (r : QueryResult K),
      r ∈ emitLoop data (some t) n l → ¬ r.score < t := by
  intro n
  induction n with
  | zero => intro l r hr; simp [emitLoop] at hr
  | succ n ih =>
    intro l r hr
    cases l with
    | nil => simp [emitLoop] at hr
    | cons p rest =>
      by_cases hp : p.2 < t
      · simp [emitLoop, hp] at hr
      · simp [emitLoop, hp] at hr
        rcases hr with rfl | hr
        · simpa using hp
        · exact ih rest r hr

/-- The thresholded emission is a prefix of the unthresholded one over
the same sorted candidates. -/
theorem emitLoop_thr_prefix {K : Type} [LinearOrderedCommRing K]
    (data : List (Data K)) (t : K) :
    ∀ (n : Nat) (l : List (Nat × K)),
      ∃ suf, emitLoop data (some t) n l ++ suf = emitLoop data none n l := by
  intro n
  induction n with
  | zero => intro l; exact ⟨[], rfl⟩
  | succ n ih =>
    intro l
    cases l with
    | nil => exact ⟨[], rfl⟩
    | cons p rest =>
      by_cases hp : p.2 < t
      · exact ⟨emitLoop data none (n + 1) (p :: rest), by simp [emitLoop, hp]⟩
      · obtain ⟨suf, hsuf⟩ := ih rest
        exact ⟨suf, by simp [emitLoop, hp, hsuf]⟩

/-- The emission loop returns at most `top_k` results. -/
theorem emitLoop_length_le {K : Type} [LinearOrderedCommRing K]
    (data : List (Data K)) (thr : Option K) :
    ∀ (n : Nat) (l : List (Nat × K)), (emitLoop data thr n l).length ≤ n := by
  intro n
  induction n with
  | zero => intro l; simp [emitLoop]
  | succ n ih =>
    intro l
    cases l with
    | nil => simp [emitLoop]
    | cons p rest =>
      cases thr with
      | none => simpa [emitLoop] using ih rest
      | some t =>
        by_cases hp : p.2 < t
        · simp [emitLoop, hp]
        · simpa [emitLoop, hp] using ih rest

/-- Claim C4: under a threshold `t`, no returned result has a score
below `t`, the result list is a prefix of what the same query returns
without the threshold, and at most `top_k` results are returned. -/
theorem query_threshold_truncation {K : Type} [LinearOrderedCommRing K]
    (nf : List K → List K) (st : NanoVectorDB K)
    (strat : Option (MetricStrategy K)) (q : List K) (top_k : Nat) (t : K)
    (flt : Option (Data K → Bool)) (res resAll : List (QueryResult K))
    (hthr : st.query nf strat q top_k (some t) flt = .ok res)
    (hall : st.query nf strat q top_k none flt = .ok resAll) :
    (∀ r ∈ res, ¬ r.score < t) ∧ (∃ suf, res ++ suf = resAll) ∧
      res.length ≤ top_k := by
  by_cases hq : q.length = st.embedding_dim
  · cases strat with
    | some ms =>
      simp only [NanoVectorDB.query, hq, ne_eq, not_true_eq_false, if_false,
        Except.ok.injEq] at hthr hall
      subst hthr
      subst hall
      exact ⟨emitLoop_score_ge _ t _ _, emitLoop_thr_prefix _ t _ _,
        emitLoop_length_le _ _ _ _⟩
    | none =>
      by_cases hm : st.metric = "cosine"
      · simp only [NanoVectorDB.query, hq, ne_eq, not_true_eq_false, if_false,
          hm, if_true, NanoVectorDB.cosine_query] at hthr hall
        cases hn : normalize nf q with
        | error e => rw [hn] at hthr; cases hthr
        | ok qn =>
          rw [hn] at hthr hall
          simp only [Except.ok.injEq] at hthr hall
          subst hthr
          subst hall
          exact ⟨emitLoop_score_ge _ t _ _, emitLoop_thr_prefix _ t _ _,
            emitLoop_length_le _ _ _ _⟩
      · simp only [NanoVectorDB.query, hq, ne_eq, not_true_eq_false, if_false,
          hm, if_false, Except.ok.injEq] at hthr hall
        subst hthr
        subst hall
        simp
  · simp [NanoVectorDB.query, hq] at hthr

/-- Witness for C4 at a concrete input: a one-record cosine store queried
with and without threshold 1. -/
theorem query_threshold_truncation_witness :
    (∀ r ∈ [(⟨⟨"a", [2]⟩, (4 : Int)⟩ : QueryResult Int)], ¬ r.score < (1 : Int)) ∧
      (∃ suf, [(⟨⟨"a", [2]⟩, (4 : Int)⟩ : QueryResult Int)] ++ suf =
        [(⟨⟨"a", [2]⟩, (4 : Int)⟩ : QueryResult Int)]) ∧
      [(⟨⟨"a", [2]⟩, (4 : Int)⟩ : QueryResult Int)].length ≤ 10 :=
  query_threshold_truncation (fun v => v)
    (⟨1, "cosine", "f", [⟨"a", [2]⟩], [[2]], JsonV.obj []⟩ : NanoVectorDB Int)
    none [2] 10 1 none _ _ (by rfl) (by rfl)

/-- Claim C7 counterexample: on a dimension-1 cosine store with no metric
strategy, the query vector `[0]` has the store dimension yet the query
fails, because the legacy cosine path normalizes the query vector and
normalization throws on a zero-norm vector. -/
theorem query_zero_vector_fails :
    NanoVectorDB.query (K := Int) (fun v => v)
      ⟨1, "cosine", "f", [], [], JsonV.obj []⟩ none [0] 10 none none =
      .error "Cannot normalize zero-norm vector" := by
  rfl

/-- Claim C7 as amended: a query whose vector has the store dimension
cannot fail, except on the legacy cosine path (no metric strategy, metric
string "cosine") when the query vector is empty or has zero norm, where
the normalization of the query vector throws. -/
theorem query_total_on_dim_amended {K : Type} [LinearOrderedCommRing K]
    (nf : List K → List K) (st : NanoVectorDB K)
    (strat : Option (MetricStrategy K)) (q : List K) (top_k : Nat)
    (thr : Option K) (flt : Option (Data K → Bool))
    (hq : q.length = st.embedding_dim)
    (hside : strat.isSome = true ∨ st.metric ≠ "cosine" ∨
      (q ≠ [] ∧ normSq q ≠ 0)) :
    ∃ res, st.query nf strat q top_k thr flt = .ok res := by
  cases strat with
  | some ms =>
    simp only [NanoVectorDB.query, hq, ne_eq, not_true_eq_false, if_false]
    exact ⟨_, rfl⟩
  | none =>
    by_cases hm : st.metric = "cosine"
    · rcases hside with hs | hs | hs
      · simp at hs
      · exact absurd hm hs
      · have hql : ¬ q.length = 0 := by
          intro h0
          exact hs.1 (List.length_eq_zero.mp h0)
        have hd0 : ¬ st.embedding_dim = 0 := by
          rw [← hq]; exact hql
        simp only [NanoVectorDB.query, hq, ne_eq, not_true_eq_false, if_false,
          hm, if_true, NanoVectorDB.cosine_query, normalize, hql, hd0, hs.2]
        exact ⟨_, rfl⟩
    · exact ⟨[], by simp [NanoVectorDB.query, hq, hm]⟩

/-- Witness for the amended C7 at a concrete input: a nonzero query of
the right dimension on a legacy cosine store succeeds. -/
theorem query_total_on_dim_amended_witness :
    ∃ res, NanoVectorDB.query (K := Int) (fun v => v)
      ⟨1, "cosine", "f", [], [], JsonV.obj []⟩ none [2] 10 none none =
      .ok res :=
  query_total_on_dim_amended (fun v => v)
    ⟨1, "cosine", "f", [], [], JsonV.obj []⟩ none [2] 10 none none
    (by decide) (Or.inr (Or.inr ⟨by decide, by decide⟩))

/-- The data-entry loop of the constructor produces exactly one entry per
data object. -/
theorem buildLoadEntries_length (matrix : List (List Nat)) :
    ∀ (ds : List (Option String)) (acc es : List (String × List Nat)),
    buildLoadEntries matrix acc ds = .ok es →
    es.length = acc.length + ds.length := by
  intro ds
  induction ds with
  | nil =>
    intro acc es h
    simp only [buildLoadEntries, Except.ok.injEq] at h
    subst h
    simp
  | cons d rest ih =>
    intro acc es h
    cases d with
    | none => simp [buildLoadEntries] at h
    | some id =>
      simp only [buildLoadEntries] at h
      have := ih (acc ++ [(id, matrix.getD acc.length [])]) es h
      simp only [List.length_append, List.length_cons, List.length_nil] at this
      simp only [List.length_cons]
      omega

/-- A successful base64 matrix decode implies the decoded byte length is
an exact multiple of `dim * 4` (with the empty blob meaning zero
bytes). -/
theorem buffer_ok_multiple (decode : String → List Nat) (b64 : String)
    (dim : Nat) (mat : List (List Nat))
    (h : buffer_string_to_array decode b64 dim = .ok mat) :
    b64 = "" ∨ (decode b64).length % (dim * 4) = 0 := by
  unfold buffer_string_to_array at h
  by_cases hd : dim = 0
  · simp [hd] at h
  · rw [if_neg hd] at h
    by_cases hb : b64 = ""
    · exact Or.inl hb
    · rw [if_neg hb] at h
      right
      by_cases hl : (decode b64).length = 0
      · simp [hl]
      · rw [if_neg hl] at h
        by_cases hm : (decode b64).length % (dim * 4) ≠ 0
        · rw [if_pos hm] at h
          cases h
        · push_neg at hm
          exact hm

/-- Claim C6 counterexample: the document `{"matrix": "", "data": []}`
— with the `embedding_dim` field absent — loads successfully on a store
configured with dimension 4, though the claim requires loading to fail
whenever `embedding_dim` is absent: the constructor compares the field
only when it is present (include/NanoVectorDB.hpp line 126). -/
theorem load_missing_dim_succeeds :
    constructLoadBytes 4 ⟨some "", some [], none, none⟩ (fun _ => [])
      Except.ok = .ok ([], []) := by
  rfl

/-- Claim C6 as amended: a successful load over an existing document
implies that the `embedding_dim` field, when present, equals the
configured dimension; that the decoded matrix byte length is an exact
multiple of `dim * 4`; and that the `data` list length equals the
decoded row count.  An absent `embedding_dim` field is accepted,
contrary to the original claim; the other two validations are
unconditional. -/
theorem load_validations_amended (dim : Nat) (doc : StoredDoc)
    (decode : String → List Nat)
    (pp : List (List Nat) → Except String (List (List Nat)))
    (entries : List (String × List Nat)) (matrix2 : List (List Nat))
    (hok : constructLoadBytes dim doc decode pp = .ok (entries, matrix2)) :
    (∀ ld, doc.embedding_dim = some ld → ld = (dim : Int)) ∧
    (∀ b64, doc.matrix = some b64 → b64 = "" ∨
      (decode b64).length % (dim * 4) = 0) ∧
    (∀ b64 ds, doc.matrix = some b64 → doc.dataIds = some ds →
      ∃ matrix, buffer_string_to_array decode b64 dim = .ok matrix ∧
        matrix.length = ds.length) := by
  cases hmx : doc.matrix with
  | none => simp [constructLoadBytes, hmx] at hok
  | some b64 =>
    cases hbuf : buffer_string_to_array decode b64 dim with
    | error e => simp [constructLoadBytes, hmx, hbuf] at hok
    | ok matrix =>
      cases hds : doc.dataIds with
      | none => simp [constructLoadBytes, hmx, hbuf, hds] at hok
      | some ds =>
        cases hent : buildLoadEntries matrix [] ds with
        | error e => simp [constructLoadBytes, hmx, hbuf, hds, hent] at hok
        | ok es =>
          have hfin : constructFinish pp es matrix = .ok (entries, matrix2) ∧
              (∀ ld, doc.embedding_dim = some ld → ld = (dim : Int)) := by
            cases hed : doc.embedding_dim with
            | none =>
              simp only [constructLoadBytes, hmx, hbuf, hds, hent, hed] at hok
              exact ⟨hok, fun ld h => by cases h⟩
            | some ld =>
              simp only [constructLoadBytes, hmx, hbuf, hds, hent, hed] at hok
              by_cases hld : ld ≠ (dim : Int)
              · rw [if_pos hld] at hok
                cases hok
              · push_neg at hld
                rw [if_neg (fun hc => hc hld)] at hok
                refine ⟨hok, fun ld2 h2 => ?_⟩
                injection h2 with h4
                rw [← h4]
                exact hld
          have hrows : matrix.length = es.length := by
            have h1 := hfin.1
            unfold constructFinish at h1
            by_cases hne : matrix.length ≠ es.length
            · rw [if_pos hne] at h1
              cases h1
            · push_neg at hne
              exact hne
          have heslen : es.length = ds.length := by
            have := buildLoadEntries_length matrix ds [] es hent
            simpa using this
          refine ⟨hfin.2, ?_, ?_⟩
          · intro b64x hx
            injection hx with hbx
            subst hbx
            exact buffer_ok_multiple decode b64 dim matrix hbuf
          · intro b64x dsx hx hdx
            injection hx with hbx
            subst hbx
            injection hdx with hdsx
            subst hdsx
            exact ⟨matrix, hbuf, by rw [hrows, heslen]⟩

/-- Witness for the amended C6 at a concrete input: a document carrying
`embedding_dim` 1, an empty matrix blob and an empty data list loads
successfully and satisfies all three validations. -/
theorem load_validations_amended_witness :
    (∀ ld, (⟨some "", some [], some 1, none⟩ : StoredDoc).embedding_dim =
      some ld → ld = (1 : Int)) ∧
    (∀ b64, (⟨some "", some [], some 1, none⟩ : StoredDoc).matrix =
      some b64 → b64 = "" ∨
      ((fun _ => []) b64 : List Nat).length % (1 * 4) = 0) ∧
    (∀ b64 ds, (⟨some "", some [], some 1, none⟩ : StoredDoc).matrix =
        some b64 →
      (⟨some "", some [], some 1, none⟩ : StoredDoc).dataIds = some ds →
      ∃ matrix, buffer_string_to_array (fun _ => []) b64 1 = .ok matrix ∧
        matrix.length = ds.length) :=
  load_validations_amended 1 ⟨some "", some [], some 1, none⟩ (fun _ => [])
    Except.ok [] [] (by rfl)

/-- A failed map lookup means the key is not among the stored keys. -/
theorem lookupA_none_not_mem {α : Type} :
    ∀ (m : List (String × α)) (key : String),
    lookupA m key = none → key ∉ m.map Prod.fst := by
  intro m key
  induction m with
  | nil =>
    intro _ hmem
    cases hmem
  | cons p rest ih =>
    obtain ⟨k, w⟩ := p
    intro h hmem
    by_cases hk : k = key
    · simp [lookupA, hk] at h
    · simp only [lookupA, hk, if_false] at h
      rcases List.mem_cons.mp hmem with hk2 | hk2
      · exact hk hk2.symm
      · exact ih h hk2

/-- Assigning a fresh key appends the pair at the end of the map. -/
theorem insertA_fresh {α : Type} :
    ∀ (m : List (String × α)) (key : String) (v : α),
    key ∉ m.map Prod.fst → insertA m key v = m ++ [(key, v)] := by
  intro m key v
  induction m with
  | nil => intro _; rfl
  | cons p rest ih =>
    obtain ⟨k, w⟩ := p
    intro h
    have hk : ¬ k = key := by
      intro hk
      exact h (by simp [hk])
    simp only [insertA, hk, if_false, List.cons_append, List.cons.injEq,
      true_and]
    exact ih (fun hmem => h (List.mem_cons_of_mem _ hmem))

/-- Erasing an absent key leaves the map unchanged. -/
theorem eraseA_not_mem {α : Type} (m : List (String × α)) (key : String)
    (h : key ∉ m.map Prod.fst) : eraseA m key = m := by
  induction m with
  | nil => rfl
  | cons p rest ih =>
    have hk : p.1 ≠ key := by
      intro hke
      exact h (by simp [hke])
    have ht : eraseA rest key = rest :=
      ih (fun hmem => h (List.mem_cons_of_mem _ hmem))
    simp only [eraseA] at ht ⊢
    rw [List.filter_cons, if_pos (by exact decide_eq_true hk), ht]

/-- Erasure commutes with taking the stored keys. -/
theorem map_fst_eraseA {α : Type} (m : List (String × α)) (key : String) :
    (eraseA m key).map Prod.fst =
      (m.map Prod.fst).filter (fun k => decide (k ≠ key)) := by
  induction m with
  | nil => rfl
  | cons p rest ih =>
    simp only [eraseA] at ih ⊢
    rw [List.map_cons, List.filter_cons, List.filter_cons]
    cases hd : decide (p.1 ≠ key) with
    | false =>
      simp only [ne_eq, decide_not] at ih
      simp [ih]
    | true =>
      simp only [ne_eq, decide_not] at ih
      simp [ih]

/-- `load_tenant_in_cache` below capacity: no eviction, the tenant is
appended to the cache map and the queue. -/
theorem load_tenant_in_cache_notfull {K : Type} [LinearOrderedCommRing K]
    (mt : MultiTenantNanoVDB K) (id : String) (db : NanoVectorDB K)
    (hnotfull : ¬ mt.max_capacity ≤ mt.storage.length)
    (hidS : id ∉ mt.storage.map Prod.fst) :
    mt.load_tenant_in_cache id db = { mt with
      storage := mt.storage ++ [(id, db)]
      cache_queue := mt.cache_queue ++ [id] } := by
  unfold MultiTenantNanoVDB.load_tenant_in_cache
  rw [if_neg hnotfull]
  simp only [insertA_fresh _ _ _ hidS]

/-- `load_tenant_in_cache` at capacity: the front of the queue is
persisted to its file and dropped from the cache before the new tenant
is appended. -/
theorem load_tenant_in_cache_full {K : Type} [LinearOrderedCommRing K]
    (mt : MultiTenantNanoVDB K) (id q0 : String) (db db0 : NanoVectorDB K)
    (restS : List (String × NanoVectorDB K)) (restQ : List String)
    (hst : mt.storage = (q0, db0) :: restS)
    (hq : mt.cache_queue = q0 :: restQ)
    (hfull : mt.max_capacity ≤ mt.storage.length)
    (hq0 : q0 ∉ restS.map Prod.fst)
    (hidS : id ∉ restS.map Prod.fst) :
    mt.load_tenant_in_cache id db = { mt with
      storage := restS ++ [(id, db)]
      cache_queue := restQ ++ [id]
      disk := insertA mt.disk db0.storage_file db0.saveDoc } := by
  unfold MultiTenantNanoVDB.load_tenant_in_cache
  rw [if_pos hfull]
  have hlk : lookupA mt.storage q0 = some db0 := by
    rw [hst]
    simp [lookupA]
  have hers : eraseA mt.storage q0 = restS := by
    rw [hst]
    have h1 : eraseA ((q0, db0) :: restS) q0 = eraseA restS q0 := by
      simp [eraseA, List.filter_cons]
    rw [h1]
    exact eraseA_not_mem restS q0 hq0
  simp only [hq, hlk, hers, insertA_fresh _ _ _ hidS]

/-- Claim C5: `get_tenant` returns the cached store with the manager
unchanged when the id is cached; when not cached but persisted, it
returns the store constructed from persistence and re-inserts it via
`load_tenant_in_cache` (which may evict another tenant); when neither
cached nor persisted, it fails with a not-found error and the manager
state is unchanged. -/
theorem get_tenant_cases {K : Type} [LinearOrderedCommRing K]
    (nf : List K → List K) (mt : MultiTenantNanoVDB K) (tenant_id : String) :
    (∀ db, lookupA mt.storage tenant_id = some db →
      mt.get_tenant nf tenant_id = (.ok db, mt)) ∧
    (lookupA mt.storage tenant_id = none →
      ∀ doc, lookupA mt.disk (mt.tenantPath tenant_id) = some doc →
      ∀ db, constructVDB nf mt.embedding_dim mt.metric
        (mt.tenantPath tenant_id) mt.disk = .ok db →
      mt.get_tenant nf tenant_id =
        (.ok db, mt.load_tenant_in_cache tenant_id db)) ∧
    (lookupA mt.storage tenant_id = none →
      lookupA mt.disk (mt.tenantPath tenant_id) = none →
      mt.get_tenant nf tenant_id =
        (.error ("Tenant not found: " ++ tenant_id), mt)) := by
  refine ⟨?_, ?_, ?_⟩
  · intro db h
    simp only [MultiTenantNanoVDB.get_tenant, h]
  · intro hnone doc hdoc db hcon
    simp only [MultiTenantNanoVDB.get_tenant, hnone, hdoc, hcon]
  · intro hnone hdisk
    simp only [MultiTenantNanoVDB.get_tenant, hnone, hdisk]

/-- Witness for C5 at a concrete input: the not-found branch on a fresh
empty manager. -/
theorem get_tenant_cases_witness :
    MultiTenantNanoVDB.get_tenant (K := Int) (fun v => v)
      ⟨1, "cosine", 2, "dir", [], [], []⟩ "x" =
      (.error ("Tenant not found: " ++ "x"),
        ⟨1, "cosine", 2, "dir", [], [], []⟩) :=
  (get_tenant_cases (fun v => v) ⟨1, "cosine", 2, "dir", [], [], []⟩
    "x").2.2 rfl rfl

theorem nodup_append_singleton {α : Type} (l : List α) (a : α)
    (h1 : l.Nodup) (h2 : a ∉ l) : (l ++ [a]).Nodup := by
  rw [List.nodup_append]
  refine ⟨h1, List.nodup_singleton a, ?_⟩
  intro x hx hxa
  rw [List.mem_singleton.mp hxa] at hx
  exact h2 hx

/-- Inserting a tenant with a fresh id preserves cache coherence, the
capacity bound and the capacity itself: at capacity, the front of the
queue is evicted before the insertion. -/
theorem load_tenant_in_cache_inv {K : Type} [LinearOrderedCommRing K]
    (mt : MultiTenantNanoVDB K) (id : String) (db : NanoVectorDB K)
    (hs : cacheSync mt) (hb : mt.storage.length ≤ mt.max_capacity)
    (hcap : 1 ≤ mt.max_capacity) (hid : id ∉ mt.cache_queue) :
    cacheSync (mt.load_tenant_in_cache id db) ∧
      (mt.load_tenant_in_cache id db).storage.length ≤ mt.max_capacity ∧
      (mt.load_tenant_in_cache id db).max_capacity = mt.max_capacity := by
  obtain ⟨hsync, hnd⟩ := hs
  have hidS : id ∉ mt.storage.map Prod.fst := by
    rw [hsync]
    exact hid
  by_cases hfull : mt.max_capacity ≤ mt.storage.length
  · have hlen : mt.storage.length = mt.max_capacity := le_antisymm hb hfull
    cases hst : mt.storage with
    | nil =>
      rw [hst] at hlen
      simp at hlen
      omega
    | cons p restS =>
      obtain ⟨q0, db0⟩ := p
      have hq : mt.cache_queue = q0 :: restS.map Prod.fst := by
        rw [← hsync, hst]
        rfl
      have hnd2 : (q0 :: restS.map Prod.fst).Nodup := hq ▸ hnd
      have hq0 : q0 ∉ restS.map Prod.fst := (List.nodup_cons.mp hnd2).1
      have hidS2 : id ∉ restS.map Prod.fst := by
        intro hmem
        exact hid (hq ▸ List.mem_cons_of_mem _ hmem)
      rw [load_tenant_in_cache_full mt id q0 db db0 restS
        (restS.map Prod.fst) hst hq hfull hq0 hidS2]
      refine ⟨⟨by simp, ?_⟩, ?_, rfl⟩
      · exact nodup_append_singleton _ _ (List.nodup_cons.mp hnd2).2 hidS2
      · have : restS.length + 1 = mt.max_capacity := by
          rw [← hlen, hst]
          rfl
        simp only [List.length_append, List.length_cons, List.length_nil]
        omega
  · rw [load_tenant_in_cache_notfull mt id db hfull hidS]
    refine ⟨⟨by simp [hsync], ?_⟩, ?_, rfl⟩
    · exact nodup_append_singleton _ _ hnd hid
    · simp only [List.length_append, List.length_cons, List.length_nil]
      omega

/-- Any single manager operation preserves cache coherence, the capacity
bound and the capacity itself, provided the id of a `create` is fresh. -/
theorem runMTOp_inv {K : Type} [LinearOrderedCommRing K]
    (nf : List K → List K) (mt : MultiTenantNanoVDB K) (op : MTOp)
    (hs : cacheSync mt) (hb : mt.storage.length ≤ mt.max_capacity)
    (hcap : 1 ≤ mt.max_capacity)
    (hfresh : ∀ id, op = MTOp.create id → id ∉ mt.cache_queue) :
    cacheSync (runMTOp nf mt op) ∧
      (runMTOp nf mt op).storage.length ≤ (runMTOp nf mt op).max_capacity ∧
      (runMTOp nf mt op).max_capacity = mt.max_capacity := by
  cases op with
  | create id =>
    have hid : id ∉ mt.cache_queue := hfresh id rfl
    cases hcon : constructVDB nf mt.embedding_dim mt.metric
        (mt.tenantPath id) mt.disk with
    | error e =>
      have : runMTOp nf mt (MTOp.create id) = mt := by
        simp [runMTOp, MultiTenantNanoVDB.create_tenant, hcon]
      rw [this]
      exact ⟨⟨hs.1, hs.2⟩, hb, rfl⟩
    | ok db =>
      have hrun : runMTOp nf mt (MTOp.create id) =
          mt.load_tenant_in_cache id db := by
        simp [runMTOp, MultiTenantNanoVDB.create_tenant, hcon]
      rw [hrun]
      obtain ⟨h1, h2, h3⟩ := load_tenant_in_cache_inv mt id db hs hb hcap hid
      exact ⟨h1, by rw [h3]; exact h2, h3⟩
  | get id =>
    cases hlku : lookupA mt.storage id with
    | some db =>
      have : runMTOp nf mt (MTOp.get id) = mt := by
        simp [runMTOp, MultiTenantNanoVDB.get_tenant, hlku]
      rw [this]
      exact ⟨⟨hs.1, hs.2⟩, hb, rfl⟩
    | none =>
      cases hdisk : lookupA mt.disk (mt.tenantPath id) with
      | none =>
        have : runMTOp nf mt (MTOp.get id) = mt := by
          simp [runMTOp, MultiTenantNanoVDB.get_tenant, hlku, hdisk]
        rw [this]
        exact ⟨⟨hs.1, hs.2⟩, hb, rfl⟩
      | some doc =>
        cases hcon : constructVDB nf mt.embedding_dim mt.metric
            (mt.tenantPath id) mt.disk with
        | error e =>
          have : runMTOp nf mt (MTOp.get id) = mt := by
            simp [runMTOp, MultiTenantNanoVDB.get_tenant, hlku, hdisk, hcon]
          rw [this]
          exact ⟨⟨hs.1, hs.2⟩, hb, rfl⟩
        | ok db =>
          have hid : id ∉ mt.cache_queue := by
            rw [← hs.1]
            exact lookupA_none_not_mem mt.storage id hlku
          have hrun : runMTOp nf mt (MTOp.get id) =
              mt.load_tenant_in_cache id db := by
            simp [runMTOp, MultiTenantNanoVDB.get_tenant, hlku, hdisk, hcon]
          rw [hrun]
          obtain ⟨h1, h2, h3⟩ := load_tenant_in_cache_inv mt id db hs hb hcap hid
          exact ⟨h1, by rw [h3]; exact h2, h3⟩
  | delete id =>
    by_cases hcont : mt.contain_tenant id
    · have hrun : runMTOp nf mt (MTOp.delete id) = { mt with
          storage := eraseA mt.storage id
          cache_queue := mt.cache_queue.filter (fun q => decide (q ≠ id))
          disk := eraseA mt.disk (mt.tenantPath id) } := by
        simp [runMTOp, MultiTenantNanoVDB.delete_tenant, hcont]
      rw [hrun]
      refine ⟨⟨?_, ?_⟩, ?_, rfl⟩
      · simp only []
        rw [map_fst_eraseA, hs.1]
      · exact hs.2.filter _
      · calc (eraseA mt.storage id).length ≤ mt.storage.length := by
              unfold eraseA
              exact List.length_filter_le _ _
          _ ≤ mt.max_capacity := hb
    · have : runMTOp nf mt (MTOp.delete id) = mt := by
        simp [runMTOp, MultiTenantNanoVDB.delete_tenant, hcont]
      rw [this]
      exact ⟨⟨hs.1, hs.2⟩, hb, rfl⟩
  | save =>
    refine ⟨⟨hs.1, hs.2⟩, hb, rfl⟩

/-- Claim C10: for every manager constructed with capacity K at least 1,
after every operation of any sequence whose created ids are fresh (the
model of the source drawing fresh random uuids), the number of cached
tenants is at most K: `load_tenant_in_cache` evicts the front of the
insertion-order queue before inserting whenever the cache is already at
capacity. -/
theorem cache_capacity_bound {K : Type} [LinearOrderedCommRing K]
    (nf : List K → List K) (dim cap : Nat) (metric dir : String)
    (disk : List (String × SavedDoc K)) (mt0 : MultiTenantNanoVDB K)
    (hmk : mkMultiTenant dim metric cap dir disk = .ok mt0)
    (ops : List MTOp) (hfresh : freshOk nf mt0 ops) :
    ∀ n, (runMTOps nf mt0 (ops.take n)).storage.length ≤ cap := by
  have hmt0 : mt0 = ⟨dim, metric, cap, dir, [], [], disk⟩ ∧ ¬ cap = 0 := by
    unfold mkMultiTenant at hmk
    by_cases h1 : dim = 0
    · rw [if_pos h1] at hmk
      cases hmk
    · rw [if_neg h1] at hmk
      by_cases h2 : cap = 0
      · rw [if_pos h2] at hmk
        cases hmk
      · rw [if_neg h2] at hmk
        by_cases h3 : dir = ""
        · rw [if_pos h3] at hmk
          cases hmk
        · rw [if_neg h3] at hmk
          cases hmk
          exact ⟨rfl, h2⟩
  have main : ∀ (l : List MTOp) (mt : MultiTenantNanoVDB K),
      cacheSync mt → mt.storage.length ≤ mt.max_capacity →
      1 ≤ mt.max_capacity → mt.max_capacity = cap →
      freshOk nf mt l →
      ∀ n, (runMTOps nf mt (l.take n)).storage.length ≤ cap := by
    intro l
    induction l with
    | nil =>
      intro mt hs hb hc hcpeq _ n
      simp only [List.take_nil, runMTOps, List.foldl_nil]
      rw [← hcpeq]
      exact hb
    | cons op rest ih =>
      intro mt hs hb hc hcpeq hf n
      cases n with
      | zero =>
        simp only [List.take_zero, runMTOps, List.foldl_nil]
        rw [← hcpeq]
        exact hb
      | succ n =>
        rw [List.take_succ_cons]
        obtain ⟨hfop, hfrest⟩ := hf
        obtain ⟨h1, h2, h3⟩ := runMTOp_inv nf mt op hs hb hc
          (by
            intro id hop
            subst hop
            exact hfop)
        have hstep : runMTOps nf mt (op :: List.take n rest) =
            runMTOps nf (runMTOp nf mt op) (List.take n rest) := rfl
        rw [hstep]
        exact ih (runMTOp nf mt op) h1 h2 (by rw [h3]; exact hc)
          (by rw [h3]; exact hcpeq) hfrest n
  obtain ⟨hval, hcap0⟩ := hmt0
  subst hval
  exact main ops _ ⟨rfl, List.nodup_nil⟩ (by simp)
    (by simpa using Nat.one_le_iff_ne_zero.mpr hcap0) rfl hfresh

/-- Witness for C10 at a concrete input: a capacity-1 manager receives
two creates; the first tenant is evicted and the cache never holds more
than one tenant. -/
theorem cache_capacity_bound_witness :
    (runMTOps (K := Int) (fun v => v)
      ⟨1, "cosine", 1, "dir", [], [], []⟩
      ([MTOp.create "a", MTOp.create "b"].take 2)).storage.length ≤ 1 :=
  cache_capacity_bound (fun v => v) 1 1 "cosine" "dir" []
    ⟨1, "cosine", 1, "dir", [], [], []⟩ (by rfl)
    [MTOp.create "a", MTOp.create "b"]
    ⟨by decide, by decide, trivial⟩ 2

/-- An absent key looks up to `none`. -/
theorem lookupA_eq_none {α : Type} :
    ∀ (m : List (String × α)) (key : String),
    key ∉ m.map Prod.fst → lookupA m key = none := by
  intro m key
  induction m with
  | nil => intro _; rfl
  | cons p rest ih =>
    intro h
    have hk : ¬ p.1 = key := by
      intro hk
      exact h (by simp [hk])
    simp only [lookupA, hk, if_false]
    exact ih (fun hmem => h (List.mem_cons_of_mem _ hmem))

/-- Creating distinct fresh tenants on an empty-disk manager below
capacity triggers no eviction: the new stores are appended to the cache
in creation order, the disk stays empty, and the configuration fields
are unchanged. -/
theorem createAll_under_cap {K : Type} [LinearOrderedCommRing K]
    (nf : List K → List K) :
    ∀ (ids : List String) (mt : MultiTenantNanoVDB K),
    mt.disk = [] → cacheSync mt →
    mt.storage.length + ids.length ≤ mt.max_capacity →
    ids.Nodup → (∀ id ∈ ids, id ∉ mt.cache_queue) →
    ∃ mtF, createAll nf mt ids = .ok mtF ∧
      mtF.storage = mt.storage ++ ids.map (fun id =>
        (id, freshVDB mt.embedding_dim mt.metric (mt.tenantPath id))) ∧
      mtF.cache_queue = mt.cache_queue ++ ids ∧
      mtF.disk = [] ∧
      mtF.embedding_dim = mt.embedding_dim ∧ mtF.metric = mt.metric ∧
      mtF.max_capacity = mt.max_capacity ∧
      mtF.storage_dir = mt.storage_dir := by
  intro ids
  induction ids with
  | nil =>
    intro mt hdisk _ _ _ _
    exact ⟨mt, rfl, by simp, by simp, hdisk, rfl, rfl, rfl, rfl⟩
  | cons id rest ih =>
    intro mt hdisk hs hlen hnd hfr
    have hid : id ∉ mt.cache_queue := hfr id (List.mem_cons_self _ _)
    have hidS : id ∉ mt.storage.map Prod.fst := by
      rw [hs.1]
      exact hid
    have hnotfull : ¬ mt.max_capacity ≤ mt.storage.length := by
      simp only [List.length_cons] at hlen
      omega
    have hcon : constructVDB nf mt.embedding_dim mt.metric
        (mt.tenantPath id) mt.disk =
        .ok (freshVDB mt.embedding_dim mt.metric (mt.tenantPath id)) := by
      rw [hdisk]
      rfl
    have hstep : mt.create_tenant nf id =
        (.ok id, mt.load_tenant_in_cache id
          (freshVDB mt.embedding_dim mt.metric (mt.tenantPath id))) := by
      simp [MultiTenantNanoVDB.create_tenant, hcon]
    have hlt := load_tenant_in_cache_notfull mt id
      (freshVDB mt.embedding_dim mt.metric (mt.tenantPath id)) hnotfull hidS
    obtain ⟨mtG, hG, hGs, hGq, hGd, hGe, hGm, hGc, hGr⟩ :=
      ih { mt with
          storage := mt.storage ++
            [(id, freshVDB mt.embedding_dim mt.metric (mt.tenantPath id))]
          cache_queue := mt.cache_queue ++ [id] }
        hdisk
        ⟨by simp [hs.1], nodup_append_singleton _ _ hs.2 hid⟩
        (by
          simp only [List.length_append, List.length_cons, List.length_nil]
          simp only [List.length_cons] at hlen
          omega)
        ((List.nodup_cons.mp hnd).2)
        (by
          intro id2 hid2 hmem
          rcases List.mem_append.mp hmem with hm | hm
          · exact hfr id2 (List.mem_cons_of_mem _ hid2) hm
          · rw [List.mem_singleton.mp hm] at hid2
            exact (List.nodup_cons.mp hnd).1 hid2)
    refine ⟨mtG, ?_, ?_, ?_, hGd, hGe, hGm, hGc, hGr⟩
    · simp only [createAll]
      rw [hstep, hlt]
      exact hG
    · rw [hGs]
      simp [MultiTenantNanoVDB.tenantPath, List.append_assoc]
    · rw [hGq]
      simp

theorem map_fst_comp_pair {α β : Type} (g : α → β) (l : List α) :
    l.map (Prod.fst ∘ fun a => (a, g a)) = l := by
  induction l with
  | nil => rfl
  | cons a as ih => simp [ih]

/-- Tenant creation composes over concatenated id lists. -/
theorem createAll_append {K : Type} [LinearOrderedCommRing K]
    (nf : List K → List K) :
    ∀ (l1 : List String) (l2 : List String)
      (mt mt1 : MultiTenantNanoVDB K),
    createAll nf mt l1 = .ok mt1 →
    createAll nf mt (l1 ++ l2) = createAll nf mt1 l2 := by
  intro l1
  induction l1 with
  | nil =>
    intro l2 mt mt1 h
    simp only [createAll, Except.ok.injEq] at h
    subst h
    rfl
  | cons id rest ih =>
    intro l2 mt mt1 h
    simp only [createAll] at h ⊢
    cases hc : mt.create_tenant nf id with
    | mk r mt2 =>
      rw [hc] at h
      cases r with
      | error e => cases h
      | ok s => exact ih l2 mt2 mt1 h

/-- Inversion of a successful manager construction. -/
theorem mkMultiTenant_ok {K : Type} [LinearOrderedCommRing K]
    (dim cap : Nat) (metric dir : String)
    (disk : List (String × SavedDoc K)) (mt0 : MultiTenantNanoVDB K)
    (hmk : mkMultiTenant dim metric cap dir disk = .ok mt0) :
    mt0 = ⟨dim, metric, cap, dir, [], [], disk⟩ ∧ ¬ cap = 0 := by
  unfold mkMultiTenant at hmk
  by_cases h1 : dim = 0
  · rw [if_pos h1] at hmk
    cases hmk
  · rw [if_neg h1] at hmk
    by_cases h2 : cap = 0
    · rw [if_pos h2] at hmk
      cases hmk
    · rw [if_neg h2] at hmk
      by_cases h3 : dir = ""
      · rw [if_pos h3] at hmk
        cases hmk
      · rw [if_neg h3] at hmk
        cases hmk
        exact ⟨rfl, h2⟩

/-- Reconstructing a store from the saved document of a fresh empty
store succeeds and reproduces the empty store at that path. -/
theorem constructFromDoc_empty {K : Type} [LinearOrderedCommRing K]
    (nf : List K → List K) (dim : Nat) (metric path : String) :
    constructFromDoc nf dim metric path
      (⟨dim, [], [], JsonV.obj []⟩ : SavedDoc K) =
      .ok ⟨dim, metric, path, [], [], JsonV.obj []⟩ := by
  unfold constructFromDoc
  simp [pre_process]

/-- Claim C3: on a freshly constructed manager of capacity `cap` with no
prior persisted state, creating `cap + 1` tenants with distinct ids
(`i0` first, then `front`, then `idLast`) evicts exactly the
first-created tenant `i0`: it is persisted — its saved document is the
only disk entry — and dropped from memory — the cache holds exactly the
later `cap` tenants in creation order — and a subsequent `get_tenant` on
`i0` reloads it from persistence with additional-data content identical
to the evicted store's. -/
theorem eviction_persist_round_trip {K : Type} [LinearOrderedCommRing K]
    (nf : List K → List K) (dim cap : Nat) (metric dir : String)
    (mt0 : MultiTenantNanoVDB K)
    (hmk : mkMultiTenant dim metric cap dir [] = .ok mt0)
    (i0 idLast : String) (front : List String)
    (hlen : front.length + 1 = cap)
    (hnd : (i0 :: (front ++ [idLast])).Nodup) :
    ∃ mtF, createAll nf mt0 (i0 :: (front ++ [idLast])) = .ok mtF ∧
      mtF.storage.map Prod.fst = front ++ [idLast] ∧
      mtF.cache_queue = front ++ [idLast] ∧
      mtF.disk = [(dir ++ "/" ++ jsonfile_from_id i0,
        NanoVectorDB.saveDoc
          (freshVDB (K := K) dim metric
            (dir ++ "/" ++ jsonfile_from_id i0)))] ∧
      ∃ db, (mtF.get_tenant nf i0).1 = .ok db ∧
        db.additional_data =
          (freshVDB (K := K) dim metric
            (dir ++ "/" ++ jsonfile_from_id i0)).additional_data ∧
        db.data = [] := by
  obtain ⟨hval, hcap0⟩ := mkMultiTenant_ok dim cap metric dir [] mt0 hmk
  subst hval
  -- distinctness facts
  have hi0nf : i0 ∉ front := fun h =>
    (List.nodup_cons.mp hnd).1 (List.mem_append_left _ h)
  have hi0nl : i0 ≠ idLast := fun h =>
    (List.nodup_cons.mp hnd).1
      (List.mem_append_right _ (h ▸ List.mem_singleton_self idLast))
  have hndfl : (front ++ [idLast]).Nodup := (List.nodup_cons.mp hnd).2
  have hlnf : idLast ∉ front := by
    intro h
    obtain ⟨_, _, hdisj⟩ := List.nodup_append.mp hndfl
    exact hdisj h (List.mem_singleton_self idLast)
  have hnd1 : (i0 :: front).Nodup := by
    have hsub : List.Sublist (i0 :: front) (i0 :: (front ++ [idLast])) :=
      List.Sublist.cons₂ i0 (List.sublist_append_left front [idLast])
    exact hnd.sublist hsub
  -- phase A: the first cap creates fill the cache without eviction
  obtain ⟨mtK, hK, hKs, hKq, hKd, hKe, hKm, hKc, hKr⟩ :=
    createAll_under_cap nf (i0 :: front)
      ⟨dim, metric, cap, dir, [], [], []⟩ rfl ⟨rfl, List.nodup_nil⟩
      (by simp only [List.length_cons, List.length_nil]; omega)
      hnd1
      (by intro id _ hmem; cases hmem)
  have hKs2 : mtK.storage =
      (i0, freshVDB (K := K) dim metric
        (dir ++ "/" ++ jsonfile_from_id i0)) ::
      front.map (fun id => (id, freshVDB (K := K) dim metric
        (dir ++ "/" ++ jsonfile_from_id id))) := by
    rw [hKs]
    simp [MultiTenantNanoVDB.tenantPath]
  have hKq2 : mtK.cache_queue = i0 :: front := by
    rw [hKq]
    simp
  -- phase B: the last create evicts the first tenant
  have hconL : constructVDB nf mtK.embedding_dim mtK.metric
      (mtK.tenantPath idLast) mtK.disk =
      .ok (freshVDB mtK.embedding_dim mtK.metric (mtK.tenantPath idLast)) := by
    rw [hKd]
    rfl
  have hstepL : mtK.create_tenant nf idLast =
      (.ok idLast, mtK.load_tenant_in_cache idLast
        (freshVDB mtK.embedding_dim mtK.metric (mtK.tenantPath idLast))) := by
    simp [MultiTenantNanoVDB.create_tenant, hconL]
  have hfull : mtK.max_capacity ≤ mtK.storage.length := by
    rw [hKc, hKs2]
    simp only [List.length_cons, List.length_map]
    omega
  have hkeys : (front.map (fun id => (id, freshVDB (K := K) dim metric
      (dir ++ "/" ++ jsonfile_from_id id)))).map Prod.fst = front := by
    simp [map_fst_comp_pair]
  have hq0 : i0 ∉ (front.map (fun id => (id, freshVDB (K := K) dim metric
      (dir ++ "/" ++ jsonfile_from_id id)))).map Prod.fst := by
    rw [hkeys]
    exact hi0nf
  have hlS : idLast ∉ (front.map (fun id => (id, freshVDB (K := K) dim
      metric (dir ++ "/" ++ jsonfile_from_id id)))).map Prod.fst := by
    rw [hkeys]
    exact hlnf
  have hload := load_tenant_in_cache_full mtK idLast i0
    (freshVDB mtK.embedding_dim mtK.metric (mtK.tenantPath idLast))
    (freshVDB (K := K) dim metric (dir ++ "/" ++ jsonfile_from_id i0))
    (front.map (fun id => (id, freshVDB (K := K) dim metric
      (dir ++ "/" ++ jsonfile_from_id id))))
    front hKs2 (by rw [hKq2]) hfull hq0 hlS
  -- assemble the final state
  have hrun : createAll nf ⟨dim, metric, cap, dir, [], [], []⟩
      (i0 :: (front ++ [idLast])) = .ok (mtK.load_tenant_in_cache idLast
        (freshVDB mtK.embedding_dim mtK.metric (mtK.tenantPath idLast))) := by
    have hsplit : (i0 :: (front ++ [idLast])) = (i0 :: front) ++ [idLast] := by
      simp
    rw [hsplit, createAll_append nf (i0 :: front) [idLast] _ mtK hK]
    simp only [createAll]
    rw [hstepL]
  -- facts about the final state
  have hFdisk : (mtK.load_tenant_in_cache idLast
      (freshVDB mtK.embedding_dim mtK.metric (mtK.tenantPath idLast))).disk =
      [(dir ++ "/" ++ jsonfile_from_id i0,
        (⟨dim, [], [], JsonV.obj []⟩ : SavedDoc K))] := by
    rw [hload]
    simp only []
    rw [hKd]
    rfl
  have hFkeys : (mtK.load_tenant_in_cache idLast
      (freshVDB mtK.embedding_dim mtK.metric
        (mtK.tenantPath idLast))).storage.map Prod.fst =
      front ++ [idLast] := by
    rw [hload]
    simp [map_fst_comp_pair]
  have hFq : (mtK.load_tenant_in_cache idLast
      (freshVDB mtK.embedding_dim mtK.metric
        (mtK.tenantPath idLast))).cache_queue = front ++ [idLast] := by
    rw [hload]
  have hFdim : (mtK.load_tenant_in_cache idLast
      (freshVDB mtK.embedding_dim mtK.metric
        (mtK.tenantPath idLast))).embedding_dim = dim := by
    rw [hload]
    simpa using hKe
  have hFmet : (mtK.load_tenant_in_cache idLast
      (freshVDB mtK.embedding_dim mtK.metric
        (mtK.tenantPath idLast))).metric = metric := by
    rw [hload]
    simpa using hKm
  have hFdir : (mtK.load_tenant_in_cache idLast
      (freshVDB mtK.embedding_dim mtK.metric
        (mtK.tenantPath idLast))).storage_dir = dir := by
    rw [hload]
    simpa using hKr
  refine ⟨_, hrun, hFkeys, hFq, hFdisk, ?_⟩
  -- get_tenant reloads the evicted tenant from persistence
  have hlook1 : lookupA (mtK.load_tenant_in_cache idLast
      (freshVDB mtK.embedding_dim mtK.metric
        (mtK.tenantPath idLast))).storage i0 = none := by
    apply lookupA_eq_none
    rw [hFkeys]
    intro hmem
    rcases List.mem_append.mp hmem with hm | hm
    · exact hi0nf hm
    · exact hi0nl (List.mem_singleton.mp hm)
  have hpath : (mtK.load_tenant_in_cache idLast
      (freshVDB mtK.embedding_dim mtK.metric
        (mtK.tenantPath idLast))).tenantPath i0 =
      dir ++ "/" ++ jsonfile_from_id i0 := by
    rw [hload]
    unfold MultiTenantNanoVDB.tenantPath
    simp only []
    rw [show mtK.storage_dir = dir from by simpa using hKr]
  have hlook2 : lookupA (mtK.load_tenant_in_cache idLast
      (freshVDB mtK.embedding_dim mtK.metric
        (mtK.tenantPath idLast))).disk
      ((mtK.load_tenant_in_cache idLast
        (freshVDB mtK.embedding_dim mtK.metric
          (mtK.tenantPath idLast))).tenantPath i0) =
      some (⟨dim, [], [], JsonV.obj []⟩ : SavedDoc K) := by
    rw [hFdisk, hpath]
    simp [lookupA]
  have hcon2 : constructVDB nf
      (mtK.load_tenant_in_cache idLast
        (freshVDB mtK.embedding_dim mtK.metric
          (mtK.tenantPath idLast))).embedding_dim
      (mtK.load_tenant_in_cache idLast
        (freshVDB mtK.embedding_dim mtK.metric
          (mtK.tenantPath idLast))).metric
      ((mtK.load_tenant_in_cache idLast
        (freshVDB mtK.embedding_dim mtK.metric
          (mtK.tenantPath idLast))).tenantPath i0)
      (mtK.load_tenant_in_cache idLast
        (freshVDB mtK.embedding_dim mtK.metric
          (mtK.tenantPath idLast))).disk =
      .ok ⟨dim, metric, dir ++ "/" ++ jsonfile_from_id i0, [], [],
        JsonV.obj []⟩ := by
    rw [hFdisk, hpath, hFdim, hFmet]
    unfold constructVDB
    have hlk : lookupA [(dir ++ "/" ++ jsonfile_from_id i0,
        (⟨dim, [], [], JsonV.obj []⟩ : SavedDoc K))]
        (dir ++ "/" ++ jsonfile_from_id i0) =
        some (⟨dim, [], [], JsonV.obj []⟩ : SavedDoc K) := by
      simp [lookupA]
    rw [hlk]
    exact constructFromDoc_empty nf dim metric _
  refine ⟨⟨dim, metric, dir ++ "/" ++ jsonfile_from_id i0, [], [],
    JsonV.obj []⟩, ?_, rfl, rfl⟩
  simp only [MultiTenantNanoVDB.get_tenant, hlook1, hlook2, hcon2]

/-- Witness for C3 at a concrete input: capacity 1, two creates; the
first tenant is evicted, persisted and reloadable with identical
additional data. -/
theorem eviction_persist_round_trip_witness :
    ∃ mtF, createAll (K := Int) (fun v => v)
      ⟨1, "cosine", 1, "dir", [], [], []⟩ ("a" :: ([] ++ ["b"])) =
        .ok mtF ∧
      mtF.storage.map Prod.fst = [] ++ ["b"] ∧
      mtF.cache_queue = [] ++ ["b"] ∧
      mtF.disk = [("dir" ++ "/" ++ jsonfile_from_id "a",
        NanoVectorDB.saveDoc (freshVDB (K := Int) 1 "cosine"
          ("dir" ++ "/" ++ jsonfile_from_id "a")))] ∧
      ∃ db, (mtF.get_tenant (fun v => v) "a").1 = .ok db ∧
        db.additional_data = (freshVDB (K := Int) 1 "cosine"
          ("dir" ++ "/" ++ jsonfile_from_id "a")).additional_data ∧
        db.data = [] :=
  eviction_persist_round_trip (fun v => v) 1 1 "cosine" "dir"
    ⟨1, "cosine", 1, "dir", [], [], []⟩ (by rfl) "a" "b" []
    (by decide) (by decide)

end Claims2

end nano_vectordb
